import Mathlib

/-! addlicense: header detection, style selection and header insertion

A shallow embedding of `main.go`.  Go byte slices and Go strings are both
sequences of bytes and are modelled as lists of natural numbers.  The
standard-library functions the program calls (`bytes.ToLower`,
`strings.ToLower`, `bytes.Contains`, `strings.HasPrefix`, `filepath.Ext`,
`filepath.Base`) are embedded from their Go definitions (Unix flavour for
the path functions).  Three collaborators are parameters:

* `lowerRune`  : the Unicode lower-case table for runes above ASCII
  (`unicode.To(unicode.LowerCase, r)`),
* `compileGlob`: `glob.Compile` of `github.com/gobwas/glob`,
* `prefixFn`   : the header synthesizer `prefix` of the repository, which is
  not part of `main.go`.
-/

namespace AddLicense

/-! ## Bytes and the standard library -/

/-- A Go `[]byte` or `string`: a sequence of bytes. -/
abbrev Bytes := List Nat

/-- The value `utf8.RuneError`, U+FFFD. -/
def runeError : Nat := 0xFFFD

/-- Go `utf8.EncodeRune` / `utf8.AppendRune`: the UTF-8 encoding of a rune;
surrogates and values above `utf8.MaxRune` are encoded as `RuneError`. -/
def encodeRune (r : Nat) : Bytes :=
  if r ≤ 0x7F then [r]
  else if r ≤ 0x7FF then [0xC0 + r / 64, 0x80 + r % 64]
  else if 0x10FFFF < r ∨ (0xD800 ≤ r ∧ r ≤ 0xDFFF) then [0xEF, 0xBF, 0xBD]
  else if r ≤ 0xFFFF then [0xE0 + r / 4096, 0x80 + (r / 64) % 64, 0x80 + r % 64]
  else [0xF0 + r / 262144, 0x80 + (r / 4096) % 64, 0x80 + (r / 64) % 64, 0x80 + r % 64]

/-- The bytes of a string literal (`[]byte("...")`). -/
def str (s : String) : Bytes := s.toList.flatMap (fun c => encodeRune c.toNat)

/-- The size field of the table `first` of Go `unicode/utf8`: the length of
the encoding that the lead byte `p0` announces (for `0xC2 ≤ p0 ≤ 0xF4`). -/
def runeSize (p0 : Nat) : Nat :=
  if p0 < 0xE0 then 2 else if p0 < 0xF0 then 3 else 4

/-- The lower bound of the accept range (`acceptRanges`) for the second byte
after the lead byte `p0`. -/
def acceptLo (p0 : Nat) : Nat :=
  if p0 = 0xE0 then 0xA0 else if p0 = 0xF0 then 0x90 else 0x80

/-- The upper bound of the accept range (`acceptRanges`) for the second byte
after the lead byte `p0`. -/
def acceptHi (p0 : Nat) : Nat :=
  if p0 = 0xED then 0x9F else if p0 = 0xF4 then 0x8F else 0xBF

/-- Go `utf8.DecodeRune`: the first rune of `p` and its width in bytes.
An invalid or truncated encoding yields `(RuneError, 1)`, empty input
`(RuneError, 0)`. -/
def decodeRune (p : Bytes) : Nat × Nat :=
  match p with
  | [] => (runeError, 0)
  | p0 :: rest =>
    if p0 < 0x80 then (p0, 1)
    else if p0 < 0xC2 ∨ 0xF4 < p0 then (runeError, 1)
    else if p.length < runeSize p0 then (runeError, 1)
    else
      match rest with
      | [] => (runeError, 1)
      | b1 :: rest1 =>
        if b1 < acceptLo p0 ∨ acceptHi p0 < b1 then (runeError, 1)
        else if runeSize p0 ≤ 2 then ((p0 % 32) * 64 + b1 % 64, 2)
        else
          match rest1 with
          | [] => (runeError, 1)
          | b2 :: rest2 =>
            if b2 < 0x80 ∨ 0xBF < b2 then (runeError, 1)
            else if runeSize p0 ≤ 3 then ((p0 % 16) * 4096 + (b1 % 64) * 64 + b2 % 64, 3)
            else
              match rest2 with
              | [] => (runeError, 1)
              | b3 :: _ =>
                if b3 < 0x80 ∨ 0xBF < b3 then (runeError, 1)
                else ((p0 % 8) * 262144 + (b1 % 64) * 4096 + (b2 % 64) * 64 + b3 % 64, 4)

/-- Lower-casing of one ASCII byte: `if 'A' <= c && c <= 'Z' { c += 'a' - 'A' }`. -/
def asciiLower (c : Nat) : Nat := if 65 ≤ c ∧ c ≤ 90 then c + 32 else c

/-- Go `unicode.ToLower`: ASCII runes are handled inline, the others go
through the Unicode case tables (`lowerRune`). -/
def unicodeToLower (lowerRune : Nat → Nat) (r : Nat) : Nat :=
  if r ≤ 0x7F then asciiLower r else lowerRune r

/-- Go `bytes.Map` / `strings.Map` for a mapping that never drops a rune:
the loop `for i < len(s) { r, wid := decode(s[i:]); append(mapping(r)); i += wid }`.
The first argument is the number of bytes still to be skipped because they
belong to the rune decoded last. -/
def mapRunesFrom (mapping : Nat → Nat) : Nat → Bytes → Bytes
  | _, [] => []
  | skip + 1, _ :: rest => mapRunesFrom mapping skip rest
  | 0, c :: rest =>
    encodeRune (mapping (decodeRune (c :: rest)).1)
      ++ mapRunesFrom mapping ((decodeRune (c :: rest)).2 - 1) rest

/-- Go `bytes.ToLower` and `strings.ToLower`: an all-ASCII input is mapped
byte by byte, any other input rune by rune. -/
def toLower (lowerRune : Nat → Nat) (s : Bytes) : Bytes :=
  if s.all (fun c => decide (c < 0x80)) then s.map asciiLower
  else mapRunesFrom (unicodeToLower lowerRune) 0 s

/-- Go `strings.HasPrefix` / `bytes.HasPrefix`:
`len(s) >= len(prefix) && s[:len(prefix)] == prefix`. -/
def hasPrefix (s pre : Bytes) : Bool :=
  decide (pre.length ≤ s.length) && (s.take pre.length == pre)

/-- Go `bytes.Contains(b, sub)`, that is `bytes.Index(b, sub) != -1`: some
position of `b` starts an occurrence of `sub`. -/
def contains : Bytes → Bytes → Bool
  | [], sub => hasPrefix [] sub
  | c :: rest, sub => hasPrefix (c :: rest) sub || contains rest sub

/-! ## Existing-header detection -/

/-- The loop over the custom patterns in `hasLicense`
(`for _, p := range hasLicensePatterns`). -/
def hasLicenseLoop (lowered : Bytes) : List Bytes → Bool
  | [] => false
  | p :: ps => if contains lowered p then true else hasLicenseLoop lowered ps

/-- The function `hasLicense` of `main.go`. -/
def hasLicense (lowerRune : Nat → Nat) (b : Bytes) (hasLicensePatterns : List Bytes) : Bool :=
  let n := if b.length < 1000 then b.length else 1000
  if hasLicensePatterns.length ≠ 0 then
    hasLicenseLoop (toLower lowerRune (b.take n)) hasLicensePatterns
  else
    contains (toLower lowerRune (b.take n)) (str "copyright") ||
      contains (toLower lowerRune (b.take n)) (str "mozilla public")

/-! ## Path classification -/

/-- The loop of Go `filepath.Ext`: scan the path backwards from its end,
stop at a path separator, return the suffix starting at the first `.` met.
`rev` holds the bytes not yet visited (last one first), `suffix` the bytes
already passed. -/
def extLoop : Bytes → Bytes → Bytes
  | [], _ => []
  | c :: rev, suffix =>
    if c = 47 then []
    else if c = 46 then c :: suffix
    else extLoop rev (c :: suffix)

/-- Go `filepath.Ext` (Unix). -/
def ext (path : Bytes) : Bytes := extLoop path.reverse []

/-- Go `filepath.Base` (Unix): strip trailing slashes, keep what follows the
last remaining slash; `.` for the empty path and `/` for a path of slashes. -/
def base (path : Bytes) : Bytes :=
  if path = [] then str "."
  else
    let stripped := (path.reverse.dropWhile (fun c => c == 47)).reverse
    let last := (stripped.reverse.takeWhile (fun c => c != 47)).reverse
    if last = [] then str "/" else last

/-- The function `fileExtension` of `main.go`. -/
def fileExtension (lowerRune : Nat → Nat) (name : Bytes) : Bytes :=
  if ext name ≠ [] then toLower lowerRune (ext name)
  else toLower lowerRune (base name)

/-- The function `stringInSlice` of `main.go`. -/
def stringInSlice (a : Bytes) : List Bytes → Bool
  | [] => false
  | b :: list => if a = b then true else stringInSlice a list

/-- One entry of the type `FileExtensions` of `main.go`. -/
structure FileExtensionsEntry where
  Extensions : List Bytes
  Top : Bytes
  Mid : Bytes
  Bot : Bytes
  deriving DecidableEq, Repr

/-- The type `FileExtensions` of `main.go`. -/
abbrev FileExtensions := List FileExtensionsEntry

/-- A Go `error` value, identified by its message. -/
structure GoError where
  message : String
  deriving DecidableEq, Repr

/-- The Go result pair `([]byte, error)`; `none` is `nil`. -/
abbrev HeaderResult := Option Bytes × Option GoError

section Classifier

variable {Tmpl Data : Type}
variable (lowerRune : Nat → Nat)
variable (prefixFn : Tmpl → Data → Bytes → Bytes → Bytes → HeaderResult)

/-- The loop over the custom rules in `licenseHeader`
(`for _, e := range extensions`). -/
def licenseHeaderLoop (tmpl : Tmpl) (data : Data) (fileExtension : Bytes) :
    FileExtensions → HeaderResult
  | [] => (none, none)
  | e :: es =>
    if stringInSlice fileExtension e.Extensions then
      prefixFn tmpl data e.Top e.Mid e.Bot
    else licenseHeaderLoop tmpl data fileExtension es

/-- The function `licenseHeader` of `main.go`. -/
def licenseHeader (path : Bytes) (tmpl : Tmpl) (data : Data)
    (extensions : FileExtensions) : HeaderResult :=
  let fileExtension := fileExtension lowerRune path
  if extensions.length ≠ 0 then
    licenseHeaderLoop prefixFn tmpl data fileExtension extensions
  else if fileExtension ∈ [str ".c", str ".h"] then
    prefixFn tmpl data (str "/*") (str " * ") (str " */")
  else if fileExtension ∈ [str ".js", str ".mjs", str ".cjs", str ".jsx", str ".tsx",
      str ".css", str ".tf", str ".ts"] then
    prefixFn tmpl data (str "/**") (str " * ") (str " */")
  else if fileExtension ∈ [str ".cc", str ".cpp", str ".cs", str ".go", str ".hh",
      str ".hpp", str ".java", str ".m", str ".mm", str ".proto", str ".rs", str ".scala",
      str ".swift", str ".dart", str ".groovy", str ".kt", str ".kts"] then
    prefixFn tmpl data (str "") (str "// ") (str "")
  else if fileExtension ∈ [str ".py", str ".sh", str ".yaml", str ".yml",
      str ".dockerfile", str "dockerfile", str ".rb", str "gemfile"] then
    prefixFn tmpl data (str "") (str "# ") (str "")
  else if fileExtension ∈ [str ".el", str ".lisp"] then
    prefixFn tmpl data (str "") (str ";; ") (str "")
  else if fileExtension ∈ [str ".erl"] then
    prefixFn tmpl data (str "") (str "% ") (str "")
  else if fileExtension ∈ [str ".hs", str ".sql"] then
    prefixFn tmpl data (str "") (str "-- ") (str "")
  else if fileExtension ∈ [str ".html", str ".xml", str ".vue"] then
    prefixFn tmpl data (str "<!--") (str " ") (str "-->")
  else if fileExtension ∈ [str ".php"] then
    prefixFn tmpl data (str "") (str "// ") (str "")
  else if fileExtension ∈ [str ".ml", str ".mli", str ".mll", str ".mly"] then
    prefixFn tmpl data (str "(**") (str "   ") (str "*)")
  else (none, none)

end Classifier

/-! ## Preamble lines -/

/-- The variable `head` of `main.go`. -/
def head : List Bytes :=
  [str "#!", str "<?xml", str "<!doctype", str "# encoding:",
   str "# frozen_string_literal:", str "<?php"]

/-- The first loop of `hashBang`: the bytes of `b` up to and including the
first newline. -/
def firstLine : Bytes → Bytes
  | [] => []
  | c :: rest => if c = 10 then [c] else c :: firstLine rest

/-- The second loop of `hashBang` (`for _, h := range head`); the empty list
stands for the `nil` result. -/
def hashBangLoop (first line : Bytes) : List Bytes → Bytes
  | [] => []
  | h :: hs => if hasPrefix first h then line else hashBangLoop first line hs

/-- The function `hashBang` of `main.go`. -/
def hashBang (lowerRune : Nat → Nat) (b : Bytes) : Bytes :=
  let line := firstLine b
  let first := toLower lowerRune line
  hashBangLoop first line head

/-! ## The file system and the log -/

/-- What a run does to the outside world, in order. -/
inductive Event where
  | readFile (path : Bytes)
  | writeFile (path data : Bytes) (perm : Nat)
  | logIgnored (path : Bytes)
  | logUnsupported (path : Bytes)
  | logModified (path : Bytes)
  | logError (path : Bytes) (err : GoError)
  | printMissing (path : Bytes)
  deriving DecidableEq, Repr

/-- The outside world of a run: the content and permission bits of every
file, the paths at which reading or writing fails, and the events so far. -/
structure World where
  files : Bytes → Option (Bytes × Nat)
  readErr : Bytes → Option GoError
  writeErr : Bytes → Option GoError
  trace : List Event

/-- Append one event to the trace. -/
def World.emit (w : World) (e : Event) : World :=
  { w with trace := w.trace ++ [e] }

/-- Go `ioutil.ReadFile`: the content of the file, or an error. -/
def ioutilReadFile (path : Bytes) (w : World) : (Bytes × Option GoError) × World :=
  match w.readErr path, w.files path with
  | some e, _ => (([], some e), w.emit (.readFile path))
  | none, none => (([], some ⟨"no such file or directory"⟩), w.emit (.readFile path))
  | none, some f => ((f.1, none), w.emit (.readFile path))

/-- Go `ioutil.WriteFile`: replace the whole content of the file; an existing
file keeps its permission bits, a new one gets `perm`.  A failing write
leaves the files as they are. -/
def ioutilWriteFile (path data : Bytes) (perm : Nat) (w : World) : Option GoError × World :=
  match w.writeErr path with
  | some e => (some e, w.emit (.writeFile path data perm))
  | none =>
    (none,
      { w.emit (.writeFile path data perm) with
        files := fun p =>
          if p = path then
            some (data, match w.files path with
              | some f => f.2
              | none => perm)
          else w.files p })

/-! ## The engine -/

/-- The function `pathInIgnoredPaths` of `main.go`.  `compileGlob` is
`glob.Compile`; `none` as a result stands for the panic of `glob.MustCompile`
on a pattern that does not compile. -/
def pathInIgnoredPaths (compileGlob : Bytes → Option (Bytes → Bool)) (path : Bytes) :
    List Bytes → Option Bool
  | [] => some false
  | p :: ps =>
    match compileGlob p with
    | none => none
    | some g => if g path then some true else pathInIgnoredPaths compileGlob path ps

/-- The type `file` of `main.go`. -/
structure File where
  path : Bytes
  mode : Nat
  deriving DecidableEq, Repr

section Engine

variable {Tmpl Data : Type}
variable (lowerRune : Nat → Nat)
variable (compileGlob : Bytes → Option (Bytes → Bool))
variable (prefixFn : Tmpl → Data → Bytes → Bytes → Bytes → HeaderResult)

/-- The bytes `addLicense` hands to `ioutil.WriteFile` for content `b` and
header `lic` (lines 239 to 247 of `main.go`). -/
def insertHeader (b lic : Bytes) : Bytes :=
  let line := hashBang lowerRune b
  if line.length > 0 then
    let b1 := b.drop line.length
    let line1 := if line.getLast? ≠ some 10 then line ++ [10] else line
    let lic1 := line1 ++ lic
    lic1 ++ b1
  else lic ++ b

/-- The function `addLicense` of `main.go`; `verbose` is the flag `-v`.
The result is `none` when `glob.MustCompile` panics. -/
def addLicense (verbose : Bool) (path : Bytes) (fmode : Nat) (tmpl : Tmpl) (data : Data)
    (ignoredPaths : List Bytes) (extensions : FileExtensions)
    (hasLicensePatterns : List Bytes) (w : World) :
    Option ((Bool × Option GoError) × World) :=
  match pathInIgnoredPaths compileGlob path ignoredPaths with
  | none => none
  | some true =>
    some ((false, none), if verbose then w.emit (.logIgnored path) else w)
  | some false =>
    match licenseHeader lowerRune prefixFn path tmpl data extensions with
    | (lic, err) =>
      if lic.isNone && err.isNone && verbose then
        some ((false, none), w.emit (.logUnsupported path))
      else
        match err, lic with
        | some e, _ => some ((false, some e), w)
        | none, none => some ((false, none), w)
        | none, some lic =>
          match ioutilReadFile path w with
          | ((b, err), w1) =>
            if err.isSome || hasLicense lowerRune b hasLicensePatterns then
              some ((false, err), w1)
            else
              match ioutilWriteFile path (insertHeader lowerRune b lic) fmode w1 with
              | (werr, w2) => some ((true, werr), w2)

/-- The function `fileHasLicense` of `main.go`. -/
def fileHasLicense (path : Bytes) (hasLicensePatterns : List Bytes) (w : World) :
    (Bool × Option GoError) × World :=
  match ioutilReadFile path w with
  | ((b, err), w1) =>
    if err.isSome || hasLicense lowerRune b hasLicensePatterns then ((false, err), w1)
    else ((true, none), w1)

/-- The per-file task started by `main` for each file of the channel
(lines 121 to 154); `checkonly` and `verbose` are the flags `-check` and `-v`.
The result is the error the task returns, `none` for `nil`; the outer `none`
is a panic of `glob.MustCompile`. -/
def fileTask (checkonly verbose : Bool) (f : File) (tmpl : Tmpl) (data : Data)
    (ignoredPaths : List Bytes) (fileExtensions : FileExtensions)
    (hasLicensePatterns : List Bytes) (w : World) : Option (Option GoError × World) :=
  if checkonly then
    match licenseHeader lowerRune prefixFn f.path tmpl data fileExtensions with
    | (_, some err) => some (some err, w.emit (.logError f.path err))
    | (none, none) => some (none, w)
    | (some _, none) =>
      match pathInIgnoredPaths compileGlob f.path ignoredPaths with
      | none => none
      | some true => some (none, w)
      | some false =>
        match fileHasLicense lowerRune f.path hasLicensePatterns w with
        | ((_, some err), w1) => some (some err, w1.emit (.logError f.path err))
        | ((true, none), w1) =>
          some (some ⟨"missing license header"⟩, w1.emit (.printMissing f.path))
        | ((false, none), w1) => some (none, w1)
  else
    match addLicense lowerRune compileGlob prefixFn verbose f.path f.mode tmpl data
        ignoredPaths fileExtensions hasLicensePatterns w with
    | none => none
    | some ((_, some err), w1) => some (some err, w1.emit (.logError f.path err))
    | some ((modified, none), w1) =>
      some (none, if verbose && modified then w1.emit (.logModified f.path) else w1)

end Engine

/-- Two successive runs of `addLicense` on the same path with the same
configuration: the result and the world after the first run and after the
second. -/
def addLicenseTwice {Tmpl Data : Type} (lowerRune : Nat → Nat)
    (compileGlob : Bytes → Option (Bytes → Bool))
    (prefixFn : Tmpl → Data → Bytes → Bytes → Bytes → HeaderResult)
    (verbose : Bool) (path : Bytes) (fmode : Nat) (tmpl : Tmpl) (data : Data)
    (ignoredPaths : List Bytes) (extensions : FileExtensions)
    (hasLicensePatterns : List Bytes) (w : World) :
    Option (((Bool × Option GoError) × World) × ((Bool × Option GoError) × World)) :=
  match addLicense lowerRune compileGlob prefixFn verbose path fmode tmpl data ignoredPaths
      extensions hasLicensePatterns w with
  | none => none
  | some (r1, w1) =>
    match addLicense lowerRune compileGlob prefixFn verbose path fmode tmpl data ignoredPaths
        extensions hasLicensePatterns w1 with
    | none => none
    | some (r2, w2) => some ((r1, w1), (r2, w2))

/-- The keys listed in the `switch` of `licenseHeader`, in the order of its
`case` clauses. -/
def builtinKeys : List Bytes :=
  [str ".c", str ".h", str ".js", str ".mjs", str ".cjs", str ".jsx", str ".tsx",
   str ".css", str ".tf", str ".ts", str ".cc", str ".cpp", str ".cs", str ".go",
   str ".hh", str ".hpp", str ".java", str ".m", str ".mm", str ".proto", str ".rs",
   str ".scala", str ".swift", str ".dart", str ".groovy", str ".kt", str ".kts",
   str ".py", str ".sh", str ".yaml", str ".yml", str ".dockerfile", str "dockerfile",
   str ".rb", str "gemfile", str ".el", str ".lisp", str ".erl", str ".hs", str ".sql",
   str ".html", str ".xml", str ".vue", str ".php", str ".ml", str ".mli", str ".mll",
   str ".mly"]

/-- Whether an event is a read or a write of a file. -/
def Event.touchesFile : Event → Bool
  | .readFile _ => true
  | .writeFile _ _ _ => true
  | _ => false

/-- Whether an event is a write of a file. -/
def Event.isWrite : Event → Bool
  | .writeFile _ _ _ => true
  | _ => false

/-! ## The pipeline of `main` -/

/-- The state of a run of `main` from line 114 on.  Two goroutines work on
it: `main` itself, which walks the arguments, sends every file on the channel
`ch`, closes `ch` and then waits for `done`; and the pipeline goroutine of
lines 117 to 161, which starts one task per file received from `ch`
(`wg.Go`), waits for all of them (`wg.Wait`), closes `done` and calls
`os.Exit(1)` when a task returned an error. -/
structure Run where
  /-- The files the walk has still to send on `ch`. -/
  toSend : List File
  /-- The buffer of the channel `ch`, of capacity 1000. -/
  ch : List File
  /-- Whether `close(ch)` (line 166) has been executed. -/
  chClosed : Bool
  /-- The tasks started by `wg.Go` that have not returned yet. -/
  running : List File
  /-- What the tasks that have returned gave back, in the order of their
  return (`none` is `nil`). -/
  returned : List (Option GoError)
  /-- The error kept by the `errgroup.Group`: the first one a task returned. -/
  err : Option GoError
  /-- Whether `wg.Wait()` (line 156) has returned. -/
  waited : Bool
  /-- Whether `close(done)` (line 157) has been executed. -/
  doneClosed : Bool
  /-- The exit status, once the process has ended. -/
  exit : Option Nat
  /-- The files and the events so far. -/
  world : World

/-- The steps the two goroutines and the tasks can take. -/
inductive Action where
  /-- `ch <- &file{path, fi.Mode()}` in `walk` (line 205); blocks while the
  buffer is full. -/
  | send
  /-- `close(ch)` (line 166), after the last `walk`. -/
  | closeCh
  /-- One turn of `for f := range ch` (lines 119 to 121): receive a file and
  start its task with `wg.Go`, which does not wait for the task. -/
  | start
  /-- The task at position `i` of the running ones returns. -/
  | finish (i : Nat)
  /-- The `range` loop has ended and `wg.Wait()` returns (line 156). -/
  | wait
  /-- `close(done)` (line 157). -/
  | closeDone
  /-- `os.Exit(1)` (lines 158 to 160). -/
  | exitFailure
  /-- `<-done` returns in `main` (line 167) and `main` returns: the program
  exits with status 0 without waiting for other goroutines. -/
  | mainReturn
  deriving DecidableEq, Repr

/-- The start of a run: nothing sent yet. -/
def initRun (files : List File) (w : World) : Run where
  toSend := files
  ch := []
  chClosed := false
  running := []
  returned := []
  err := none
  waited := false
  doneClosed := false
  exit := none
  world := w

section Pipeline

variable {Tmpl Data : Type}
variable (lowerRune : Nat → Nat)
variable (compileGlob : Bytes → Option (Bytes → Bool))
variable (prefixFn : Tmpl → Data → Bytes → Bytes → Bytes → HeaderResult)
variable (checkonly verbose : Bool) (tmpl : Tmpl) (data : Data)
variable (ignoredPaths : List Bytes) (fileExtensions : FileExtensions)
variable (hasLicensePatterns : List Bytes)

/-- One step of a run; `none` when the step cannot be taken in the state.
A task is one atomic step, taken when it returns: it applies `fileTask` to
the world and hands its error to the group, which keeps the first one.  A
panic of a task ends the process with status 2. -/
def step (a : Action) (s : Run) : Option Run :=
  if s.exit.isSome then none
  else
    match a with
    | .send =>
      match s.toSend with
      | [] => none
      | f :: rest =>
        if s.ch.length < 1000 then some { s with toSend := rest, ch := s.ch ++ [f] }
        else none
    | .closeCh =>
      if s.toSend = [] ∧ s.chClosed = false then some { s with chClosed := true } else none
    | .start =>
      match s.ch with
      | [] => none
      | f :: rest => some { s with ch := rest, running := s.running ++ [f] }
    | .finish i =>
      match s.running.get? i with
      | none => none
      | some f =>
        match fileTask lowerRune compileGlob prefixFn checkonly verbose f tmpl data
            ignoredPaths fileExtensions hasLicensePatterns s.world with
        | none => some { s with exit := some 2 }
        | some (e, w1) =>
          some { s with
            running := s.running.eraseIdx i
            returned := s.returned ++ [e]
            err := if s.err.isSome then s.err else e
            world := w1 }
    | .wait =>
      if s.ch = [] ∧ s.chClosed = true ∧ s.running = [] ∧ s.waited = false then
        some { s with waited := true }
      else none
    | .closeDone =>
      if s.waited = true ∧ s.doneClosed = false then some { s with doneClosed := true }
      else none
    | .exitFailure =>
      if s.doneClosed = true ∧ s.err.isSome = true then some { s with exit := some 1 }
      else none
    | .mainReturn =>
      if s.chClosed = true ∧ s.doneClosed = true then some { s with exit := some 0 }
      else none

/-- A sequence of steps, taken one after the other. -/
def runActions : List Action → Run → Option Run
  | [], s => some s
  | a :: rest, s =>
    match step lowerRune compileGlob prefixFn checkonly verbose tmpl data ignoredPaths
        fileExtensions hasLicensePatterns a s with
    | none => none
    | some s1 => runActions rest s1

end Pipeline

/-- The schedule that sends `n` files and starts the task of each as soon as
it is received, while no task returns. -/
def sendAndStart : Nat → List Action
  | 0 => []
  | n + 1 => Action.send :: Action.start :: sendAndStart n

/-- The files `0`, `1`, ..., `n - 1`, with permission bits `0644`. -/
def numberedFiles (n : Nat) : List File :=
  (List.range n).map (fun i => ⟨(Nat.toDigits 10 i).map Char.toNat, 420⟩)

/-- What holds in every state that a run over `n` files can reach: every
file is waiting to be sent, in the channel, in a running task or in a task
that has returned; the group holds an error exactly when a returned task gave
one; `main` closes `ch` after the last send; `wg.Wait` returns only when the
channel is drained and closed and no task is running; `done` is closed after
that; and the process exits with status 0 or 1 only after `done` is closed,
with status 1 only when the group holds an error. -/
def Run.Inv (n : Nat) (s : Run) : Prop :=
  s.toSend.length + s.ch.length + s.running.length + s.returned.length = n ∧
  (s.err.isSome = true ↔ ∃ e ∈ s.returned, e.isSome = true) ∧
  (s.chClosed = true → s.toSend = []) ∧
  (s.waited = true → s.ch = [] ∧ s.chClosed = true ∧ s.running = []) ∧
  (s.doneClosed = true → s.waited = true) ∧
  (s.exit = some 1 → s.err.isSome = true ∧ s.doneClosed = true) ∧
  (s.exit = some 0 → s.doneClosed = true)

/-! ## A small concrete world, used to evaluate the engine -/

/-- A header synthesizer for evaluation: the comment prefix followed by a
fixed copyright line and the separating blank line. -/
def sampleHeader (_ _ : Unit) (_ mid _ : Bytes) : HeaderResult :=
  (some (mid ++ str "Copyright 2024 Acme\n\n"), none)

/-- A glob compiler for evaluation: every pattern compiles, and matches
exactly the path equal to it. -/
def sampleGlob (p : Bytes) : Option (Bytes → Bool) :=
  some (fun path => path == p)

/-- A glob compiler for evaluation in which the pattern `[` does not compile
(an unclosed character class); every other pattern compiles and matches
exactly the path equal to it. -/
def sampleGlobStrict (p : Bytes) : Option (Bytes → Bool) :=
  if p = str "[" then none else some (fun path => path == p)

/-- A world with the single file `path` of content `b` and permission bits
`0644`, in which no read or write fails. -/
def sampleWorld (path b : Bytes) : World where
  files := fun p => if p = path then some (b, 420) else none
  readErr := fun _ => none
  writeErr := fun _ => none
  trace := []

/-! ## Substring search -/

theorem hasPrefix_iff (s pre : Bytes) : hasPrefix s pre = true ↔ pre <+: s := by
  unfold hasPrefix
  rw [Bool.and_eq_true, decide_eq_true_iff, beq_iff_eq]
  constructor
  · rintro ⟨_, h⟩
    exact h ▸ List.take_prefix _ _
  · intro h
    exact ⟨h.length_le, (List.prefix_iff_eq_take.mp h).symm⟩

theorem contains_iff (s sub : Bytes) : contains s sub = true ↔ sub <:+: s := by
  induction s with
  | nil =>
    simp only [contains, hasPrefix_iff]
    constructor
    · intro h
      exact h.isInfix
    · intro h
      rw [List.eq_nil_of_infix_nil h]
  | cons c rest ih =>
    simp only [contains, Bool.or_eq_true, hasPrefix_iff, ih]
    rw [List.infix_cons_iff]

theorem hasLicenseLoop_iff (lowered : Bytes) (pats : List Bytes) :
    hasLicenseLoop lowered pats = true ↔ ∃ p ∈ pats, p <:+: lowered := by
  induction pats with
  | nil => simp [hasLicenseLoop]
  | cons p ps ih =>
    simp only [hasLicenseLoop, List.mem_cons, exists_eq_or_imp, ← contains_iff]
    by_cases h : contains lowered p = true
    · simp [h]
    · simp only [h, if_false, false_or, Bool.false_eq_true]
      rw [ih]
      simp only [contains_iff]

theorem take_window (b : Bytes) :
    b.take (if b.length < 1000 then b.length else 1000) = b.take 1000 := by
  split
  · rw [List.take_of_length_le (Nat.le_refl _), List.take_of_length_le (by omega)]
  · rfl

theorem hasLicense_window (lowerRune : Nat → Nat) (b : Bytes) (pats : List Bytes) :
    hasLicense lowerRune b pats =
      if pats.length ≠ 0 then hasLicenseLoop (toLower lowerRune (b.take 1000)) pats
      else contains (toLower lowerRune (b.take 1000)) (str "copyright") ||
        contains (toLower lowerRune (b.take 1000)) (str "mozilla public") := by
  simp only [hasLicense, take_window]

/-! ## Lower-casing keeps ASCII text in place -/

theorem asciiLower_lt {c : Nat} (h : c < 128) : asciiLower c < 128 := by
  unfold asciiLower
  split <;> omega

theorem encodeRune_ascii {c : Nat} (h : c < 128) : encodeRune c = [c] := by
  unfold encodeRune
  rw [if_pos (by omega)]

theorem decodeRune_ascii {c : Nat} (rest : Bytes) (h : c < 128) :
    decodeRune (c :: rest) = (c, 1) := by
  unfold decodeRune
  simp only [h, if_true]

/-- The bytes that `decodeRune` consumes after the first one are
continuation bytes, none of them ASCII. -/
theorem decodeRune_continuation (c : Nat) (rest : Bytes) :
    ∀ x ∈ rest.take ((decodeRune (c :: rest)).2 - 1), 128 ≤ x := by
  intro x hx
  have hlo : 128 ≤ acceptLo c := by
    unfold acceptLo
    split_ifs <;> omega
  unfold decodeRune at hx
  rcases rest with _ | ⟨b1, _ | ⟨b2, _ | ⟨b3, rest3⟩⟩⟩
  · simp at hx
  all_goals
    simp only at hx
    split_ifs at hx
    all_goals
      simp only [Nat.add_one_sub_one, Nat.sub_self, Nat.reduceSub,
        List.take_succ_cons, List.take_zero, List.take_nil, List.mem_cons,
        List.mem_singleton, List.not_mem_nil, or_false] at hx
      try rcases hx with hx | hx | hx
      all_goals try omega

theorem toLower_of_ascii (lowerRune : Nat → Nat) (s : Bytes) (h : ∀ c ∈ s, c < 128) :
    toLower lowerRune s = s.map asciiLower := by
  unfold toLower
  rw [if_pos]
  rw [List.all_eq_true]
  intro c hc
  exact decide_eq_true (h c hc)

theorem mapRunesFrom_ascii_cons (lowerRune : Nat → Nat) {c : Nat} (rest : Bytes)
    (h : c < 128) :
    mapRunesFrom (unicodeToLower lowerRune) 0 (c :: rest)
      = asciiLower c :: mapRunesFrom (unicodeToLower lowerRune) 0 rest := by
  rw [mapRunesFrom, decodeRune_ascii rest h]
  simp only [unicodeToLower, if_pos (show c ≤ 0x7F by omega),
    encodeRune_ascii (asciiLower_lt h), Nat.sub_self, List.singleton_append]

/-- ASCII text at the start of the input is lower-cased in place. -/
theorem mapRunesFrom_ascii_isPrefix (lowerRune : Nat → Nat) (w : Bytes)
    (hw : ∀ c ∈ w, c < 128) :
    ∀ s : Bytes, w <+: s →
      w.map asciiLower <+: mapRunesFrom (unicodeToLower lowerRune) 0 s := by
  induction w with
  | nil => intro s _; exact List.nil_prefix
  | cons a w ih =>
    intro s hs
    obtain ⟨t, rfl⟩ := hs
    have ha : a < 128 := hw a (List.mem_cons_self _ _)
    rw [List.cons_append, mapRunesFrom_ascii_cons lowerRune _ ha, List.map_cons]
    rw [List.prefix_cons_inj]
    exact ih (fun c hc => hw c (List.mem_cons_of_mem _ hc)) _ (List.prefix_append _ _)

/-- ASCII text anywhere in the input is lower-cased in place: no rune
decoded before it reaches into it. -/
theorem mapRunesFrom_ascii_isInfix (lowerRune : Nat → Nat) (w : Bytes)
    (hw : ∀ c ∈ w, c < 128) (hne : w ≠ []) :
    ∀ (s : Bytes) (skip : Nat), (∀ x ∈ s.take skip, 128 ≤ x) → w <:+: s →
      w.map asciiLower <:+: mapRunesFrom (unicodeToLower lowerRune) skip s := by
  intro s
  induction s with
  | nil =>
    intro skip _ hs
    exact absurd (List.eq_nil_of_infix_nil hs) hne
  | cons c rest ih =>
    intro skip hskip hs
    rcases List.infix_cons_iff.mp hs with hpre | hin
    · obtain ⟨a, w1, rfl⟩ := List.exists_cons_of_ne_nil hne
      have hac : a = c := by
        obtain ⟨t, ht⟩ := hpre
        simp only [List.cons_append, List.cons.injEq] at ht
        exact ht.1
      subst hac
      have ha : a < 128 := hw a (List.mem_cons_self _ _)
      cases skip with
      | zero => exact (mapRunesFrom_ascii_isPrefix lowerRune _ hw _ hpre).isInfix
      | succ k =>
        have := hskip a (by simp)
        omega
    · cases skip with
      | zero =>
        rw [mapRunesFrom]
        exact (ih _ (decodeRune_continuation c rest) hin).trans
          (List.suffix_append _ _).isInfix
      | succ k =>
        rw [mapRunesFrom]
        refine ih k (fun x hx => hskip x ?_) hin
        rw [List.take_succ_cons]
        exact List.mem_cons_of_mem _ hx

/-- ASCII text that occurs in `s` occurs lower-cased in `toLower s`. -/
theorem toLower_ascii_isInfix (lowerRune : Nat → Nat) (w s : Bytes)
    (hw : ∀ c ∈ w, c < 128) (hs : w <:+: s) :
    w.map asciiLower <:+: toLower lowerRune s := by
  by_cases hne : w = []
  · subst hne
    exact List.nil_infix
  unfold toLower
  split
  · exact hs.map asciiLower
  · exact mapRunesFrom_ascii_isInfix lowerRune w hw hne s 0 (by simp) hs

/-! ## Claims on the detector -/

/-- C3. The detector looks at the first 1000 bytes only: its answer on `b` is
its answer on `b[:min(len(b), 1000)]`, and whatever follows the first 1000
bytes of a content does not change the answer; text that indicates a license
only after that offset leaves the answer at "no header". -/
theorem hasLicense_bounded (lowerRune : Nat → Nat) (b : Bytes) (pats : List Bytes) :
    hasLicense lowerRune b pats = hasLicense lowerRune (b.take (min b.length 1000)) pats ∧
    ∀ rest : Bytes, 1000 ≤ b.length → hasLicense lowerRune b pats = false →
      hasLicense lowerRune (b ++ rest) pats = false := by
  have key : ∀ c : Bytes, hasLicense lowerRune c pats
      = hasLicense lowerRune (c.take 1000) pats := by
    intro c
    rw [hasLicense_window, hasLicense_window, List.take_take, Nat.min_self]
  refine ⟨?_, ?_⟩
  · have hmin : b.take (min b.length 1000) = b.take 1000 := by
      rcases Nat.le_total b.length 1000 with h | h
      · rw [Nat.min_eq_left h, List.take_of_length_le (Nat.le_refl _),
          List.take_of_length_le h]
      · rw [Nat.min_eq_right h]
    rw [hmin, ← key b]
  · intro rest hlen hb
    rw [key, List.take_append_of_le_length hlen, ← key]
    exact hb

set_option maxRecDepth 100000 in
theorem hasLicense_bounded_witness :
    1000 ≤ (List.replicate 1000 32).length ∧
    hasLicense id (List.replicate 1000 32) [] = false ∧
    hasLicense id (List.replicate 1000 32 ++ str "copyright") [] = false :=
  ⟨by decide, by decide,
    (hasLicense_bounded id (List.replicate 1000 32) []).2 (str "copyright")
      (by decide) (by decide)⟩

/-- C4. With a non-empty custom pattern list the detector answers true
exactly when some pattern of the list, taken byte for byte, occurs in the
lower-cased first 1000 bytes of the content; the built-in words play no part:
when no custom pattern occurs the answer is false, whatever else the content
holds. -/
theorem hasLicense_custom (lowerRune : Nat → Nat) (b : Bytes) (pats : List Bytes)
    (hne : pats ≠ []) :
    (hasLicense lowerRune b pats = true ↔
      ∃ p ∈ pats, p <:+: toLower lowerRune (b.take 1000)) ∧
    ((∀ p ∈ pats, ¬ p <:+: toLower lowerRune (b.take 1000)) →
      hasLicense lowerRune b pats = false) := by
  have hlen : pats.length ≠ 0 := fun h => hne (List.length_eq_zero.mp h)
  have hiff : hasLicense lowerRune b pats = true ↔
      ∃ p ∈ pats, p <:+: toLower lowerRune (b.take 1000) := by
    rw [hasLicense_window, if_pos hlen, hasLicenseLoop_iff]
  refine ⟨hiff, fun hno => ?_⟩
  rw [← Bool.not_eq_true, hiff]
  rintro ⟨p, hp, hin⟩
  exact hno p hp hin

theorem hasLicense_custom_witness :
    str "copyright" <:+: toLower id ((str "// Copyright 2020 Acme").take 1000) ∧
    hasLicense id (str "// Copyright 2020 Acme") [str "spdx-license-identifier"] = false :=
  ⟨by decide,
    (hasLicense_custom id (str "// Copyright 2020 Acme") [str "spdx-license-identifier"]
      (by decide)).2 (by decide)⟩

/-- C5. With no custom pattern the detector answers true exactly when the
lower-cased first 1000 bytes of the content contain "copyright" or
"mozilla public"; so either word, written in any mix of upper and lower case
within the first 1000 bytes, is detected. -/
theorem hasLicense_default (lowerRune : Nat → Nat) (b : Bytes) :
    (hasLicense lowerRune b [] = true ↔
      (str "copyright" <:+: toLower lowerRune (b.take 1000) ∨
        str "mozilla public" <:+: toLower lowerRune (b.take 1000))) ∧
    (∀ w : Bytes,
      (w.map asciiLower = str "copyright" ∨ w.map asciiLower = str "mozilla public") →
      w <:+: b.take 1000 → hasLicense lowerRune b [] = true) := by
  have hiff : hasLicense lowerRune b [] = true ↔
      (str "copyright" <:+: toLower lowerRune (b.take 1000) ∨
        str "mozilla public" <:+: toLower lowerRune (b.take 1000)) := by
    rw [hasLicense_window, if_neg (by simp), Bool.or_eq_true, contains_iff, contains_iff]
  refine ⟨hiff, fun w hw hin => ?_⟩
  have hascii : ∀ c ∈ w, c < 128 := by
    intro c hc
    have hmem : asciiLower c ∈ w.map asciiLower := List.mem_map_of_mem _ hc
    have hlt : asciiLower c < 128 := by
      rcases hw with hw | hw
      · exact (by decide : ∀ x ∈ str "copyright", x < 128) _ (hw ▸ hmem)
      · exact (by decide : ∀ x ∈ str "mozilla public", x < 128) _ (hw ▸ hmem)
    unfold asciiLower at hlt
    split at hlt <;> omega
  have hlow := toLower_ascii_isInfix lowerRune w (b.take 1000) hascii hin
  rw [hiff]
  rcases hw with hw | hw
  · exact Or.inl (hw ▸ hlow)
  · exact Or.inr (hw ▸ hlow)

theorem hasLicense_default_witness :
    hasLicense id (str "# COPYRIGHT 2020") [] = true ∧
    hasLicense id (str "the Mozilla Public License") [] = true :=
  ⟨(hasLicense_default id (str "# COPYRIGHT 2020")).2 (str "COPYRIGHT")
      (Or.inl (by decide)) (by decide),
    (hasLicense_default id (str "the Mozilla Public License")).2 (str "Mozilla Public")
      (Or.inr (by decide)) (by decide)⟩

/-- C6. A custom pattern is compared byte for byte with the lower-cased
content and is not itself lower-cased: the pattern "Copyright" occurs, up to
letter case, in the content "// Copyright 2020 Acme", and the detector does
not find it, while it finds the same pattern written in lower case. -/
theorem hasLicense_pattern_not_folded (lowerRune : Nat → Nat) :
    toLower lowerRune (str "Copyright")
      <:+: toLower lowerRune ((str "// Copyright 2020 Acme").take 1000) ∧
    hasLicense lowerRune (str "// Copyright 2020 Acme") [str "Copyright"] = false ∧
    hasLicense lowerRune (str "// Copyright 2020 Acme") [str "copyright"] = true := by
  rw [hasLicense_window, hasLicense_window,
    toLower_of_ascii lowerRune (str "Copyright") (by decide),
    toLower_of_ascii lowerRune ((str "// Copyright 2020 Acme").take 1000) (by decide)]
  decide

/-! ## Claims on the inserter -/

theorem ioutilReadFile_ok (path b : Bytes) (m : Nat) (w : World)
    (herr : w.readErr path = none) (hfile : w.files path = some (b, m)) :
    ioutilReadFile path w = ((b, none), w.emit (.readFile path)) := by
  simp only [ioutilReadFile, herr, hfile]

theorem ioutilWriteFile_err (path d : Bytes) (perm : Nat) (w : World) :
    (ioutilWriteFile path d perm w).1 = w.writeErr path := by
  unfold ioutilWriteFile
  cases w.writeErr path <;> rfl

theorem ioutilWriteFile_trace (path d : Bytes) (perm : Nat) (w : World) :
    (ioutilWriteFile path d perm w).2.trace = w.trace ++ [.writeFile path d perm] := by
  unfold ioutilWriteFile
  cases w.writeErr path <;> rfl

theorem ioutilWriteFile_files_other (path d : Bytes) (perm : Nat) (w : World) (q : Bytes)
    (hq : q ≠ path) : (ioutilWriteFile path d perm w).2.files q = w.files q := by
  unfold ioutilWriteFile
  cases w.writeErr path with
  | some e => rfl
  | none => simp only [if_neg hq]

theorem ioutilWriteFile_files_fail (path d : Bytes) (perm : Nat) (w : World) (e : GoError)
    (he : w.writeErr path = some e) : (ioutilWriteFile path d perm w).2.files = w.files := by
  unfold ioutilWriteFile
  rw [he]
  rfl

theorem ioutilWriteFile_files_ok (path d b : Bytes) (perm m : Nat) (w : World)
    (hw : w.writeErr path = none) (hfile : w.files path = some (b, m)) :
    (ioutilWriteFile path d perm w).2.files path = some (d, m) := by
  unfold ioutilWriteFile
  rw [hw]
  simp only [if_true, hfile]

theorem ioutilWriteFile_readErr (path d : Bytes) (perm : Nat) (w : World) :
    (ioutilWriteFile path d perm w).2.readErr = w.readErr := by
  unfold ioutilWriteFile
  cases w.writeErr path <;> rfl

theorem ioutilWriteFile_writeErr (path d : Bytes) (perm : Nat) (w : World) :
    (ioutilWriteFile path d perm w).2.writeErr = w.writeErr := by
  unfold ioutilWriteFile
  cases w.writeErr path <;> rfl

theorem suffix_newline_iff (l : Bytes) : [10] <:+ l ↔ l.getLast? = some 10 := by
  rcases List.eq_nil_or_concat l with rfl | ⟨l1, a, rfl⟩
  · simp
  · rw [List.concat_eq_append, List.getLast?_append]
    simp only [List.getLast?_singleton, Option.or]
    constructor
    · rintro ⟨t, ht⟩
      have := List.append_inj_right' ht rfl
      simp only [List.cons.injEq, and_true] at this
      rw [this]
    · intro ha
      simp only [Option.some.injEq] at ha
      rw [ha]
      exact List.suffix_append _ _

/-- The bytes handed to the write, in the words of the specification. -/
theorem insertHeader_eq (lowerRune : Nat → Nat) (b lic : Bytes) :
    insertHeader lowerRune b lic =
      if hashBang lowerRune b = [] then lic ++ b
      else (if [10] <:+ hashBang lowerRune b then hashBang lowerRune b
        else hashBang lowerRune b ++ [10]) ++ lic ++ b.drop (hashBang lowerRune b).length := by
  unfold insertHeader
  simp only [suffix_newline_iff]
  by_cases hl : hashBang lowerRune b = []
  · simp [hl]
  · have hpos : (hashBang lowerRune b).length > 0 := List.length_pos.mpr hl
    simp only [hpos, if_true, hl, if_false]
    by_cases hlast : (hashBang lowerRune b).getLast? = some 10
    · simp [hlast]
    · simp [hlast]

/-- C1. For a supported, non-ignored path whose file is readable with a
content `b` on which the detector reports no header, `addLicense` reads the
file once and then writes it once, with the file's mode, and the bytes it
writes are `h ++ b` when `hashBang b` is empty and otherwise
`L1 ++ h ++ (b without its first len(L) bytes)`, where `L = hashBang b` and
`L1` is `L`, followed by a newline when `L` does not end in one.  It returns
`true` with the error of the write, and when the write succeeds the file holds
exactly these bytes, with its permission bits unchanged. -/
theorem addLicense_writes {Tmpl Data : Type} (lowerRune : Nat → Nat)
    (compileGlob : Bytes → Option (Bytes → Bool))
    (prefixFn : Tmpl → Data → Bytes → Bytes → Bytes → HeaderResult)
    (verbose : Bool) (path : Bytes) (fmode : Nat) (tmpl : Tmpl) (data : Data)
    (ignoredPaths : List Bytes) (extensions : FileExtensions) (pats : List Bytes)
    (w : World) (h b : Bytes) (m : Nat)
    (hign : pathInIgnoredPaths compileGlob path ignoredPaths = some false)
    (hlic : licenseHeader lowerRune prefixFn path tmpl data extensions = (some h, none))
    (herr : w.readErr path = none) (hfile : w.files path = some (b, m))
    (hno : hasLicense lowerRune b pats = false) :
    ∃ out : Bytes, ∃ w1 : World,
      (out = if hashBang lowerRune b = [] then h ++ b
        else (if [10] <:+ hashBang lowerRune b then hashBang lowerRune b
          else hashBang lowerRune b ++ [10]) ++ h ++ b.drop (hashBang lowerRune b).length) ∧
      addLicense lowerRune compileGlob prefixFn verbose path fmode tmpl data ignoredPaths
        extensions pats w = some ((true, w.writeErr path), w1) ∧
      w1.trace = w.trace ++ [.readFile path, .writeFile path out fmode] ∧
      (w.writeErr path = none → w1.files path = some (out, m)) ∧
      (∀ q, q ≠ path → w1.files q = w.files q) := by
  have hrun : addLicense lowerRune compileGlob prefixFn verbose path fmode tmpl data
      ignoredPaths extensions pats w
      = some ((true, (ioutilWriteFile path (insertHeader lowerRune b h) fmode
            (w.emit (.readFile path))).1),
          (ioutilWriteFile path (insertHeader lowerRune b h) fmode
            (w.emit (.readFile path))).2) := by
    unfold addLicense
    simp only [hign, hlic, Option.isNone_some, Bool.false_and, Bool.false_eq_true, if_false,
      ioutilReadFile_ok path b m w herr hfile, Option.isSome_none, hno, Bool.or_false]
  refine ⟨insertHeader lowerRune b h,
    (ioutilWriteFile path (insertHeader lowerRune b h) fmode (w.emit (.readFile path))).2,
    insertHeader_eq lowerRune b h, ?_, ?_, ?_, ?_⟩
  · rw [hrun, ioutilWriteFile_err]
    rfl
  · rw [ioutilWriteFile_trace]
    simp [World.emit]
  · intro hw
    exact ioutilWriteFile_files_ok path _ b fmode m _ hw hfile
  · intro q hq
    rw [ioutilWriteFile_files_other _ _ _ _ _ hq]
    rfl

theorem addLicense_writes_witness :
    (∃ w1 : World,
      addLicense id sampleGlob sampleHeader false (str "run.sh") 493 () () [] [] []
          (sampleWorld (str "run.sh") (str "#!/bin/sh\necho hi\n"))
        = some ((true, none), w1) ∧
      w1.trace = [.readFile (str "run.sh"),
        .writeFile (str "run.sh") (str "#!/bin/sh\n# Copyright 2024 Acme\n\necho hi\n") 493] ∧
      w1.files (str "run.sh")
        = some (str "#!/bin/sh\n# Copyright 2024 Acme\n\necho hi\n", 420)) ∧
    (∃ w1 : World,
      addLicense id sampleGlob sampleHeader false (str "main.go") 420 () () [] [] []
          (sampleWorld (str "main.go") (str "package main\n"))
        = some ((true, none), w1) ∧
      w1.files (str "main.go")
        = some (str "// Copyright 2024 Acme\n\npackage main\n", 420)) := by
  constructor
  · obtain ⟨out, w1, hout, hrun, htrace, hfiles, _⟩ :=
      addLicense_writes id sampleGlob sampleHeader false (str "run.sh") 493 () () [] [] []
        (sampleWorld (str "run.sh") (str "#!/bin/sh\necho hi\n"))
        (str "# Copyright 2024 Acme\n\n") (str "#!/bin/sh\necho hi\n") 420
        (by decide) (by decide) (by decide) (by decide) (by decide)
    have hval : out = str "#!/bin/sh\n# Copyright 2024 Acme\n\necho hi\n" :=
      hout.trans (by decide)
    subst hval
    exact ⟨w1, hrun, htrace, hfiles rfl⟩
  · obtain ⟨out, w1, hout, hrun, _, hfiles, _⟩ :=
      addLicense_writes id sampleGlob sampleHeader false (str "main.go") 420 () () [] [] []
        (sampleWorld (str "main.go") (str "package main\n"))
        (str "// Copyright 2024 Acme\n\n") (str "package main\n") 420
        (by decide) (by decide) (by decide) (by decide) (by decide)
    have hval : out = str "// Copyright 2024 Acme\n\npackage main\n" :=
      hout.trans (by decide)
    subst hval
    exact ⟨w1, hrun, hfiles rfl⟩

theorem World.emit_files (w : World) (e : Event) : (w.emit e).files = w.files := rfl
theorem World.emit_readErr (w : World) (e : Event) : (w.emit e).readErr = w.readErr := rfl
theorem World.emit_writeErr (w : World) (e : Event) : (w.emit e).writeErr = w.writeErr := rfl

theorem ioutilReadFile_world (path : Bytes) (w : World) :
    (ioutilReadFile path w).2 = w.emit (.readFile path) := by
  unfold ioutilReadFile
  cases w.readErr path <;> cases w.files path <;> rfl

theorem ioutilReadFile_congr (path : Bytes) (w w1 : World) (hf : w1.files = w.files)
    (hr : w1.readErr = w.readErr) : (ioutilReadFile path w1).1 = (ioutilReadFile path w).1 := by
  unfold ioutilReadFile
  rw [hf, hr]
  cases w.readErr path <;> cases w.files path <;> rfl

theorem ioutilReadFile_of_ok (path : Bytes) (w : World)
    (h : (ioutilReadFile path w).1.2 = none) :
    ∃ b m, w.readErr path = none ∧ w.files path = some (b, m) ∧
      (ioutilReadFile path w).1.1 = b := by
  unfold ioutilReadFile at h ⊢
  cases hr : w.readErr path with
  | some e => simp [hr] at h
  | none =>
    cases hf : w.files path with
    | none => simp [hr, hf] at h
    | some f => exact ⟨f.1, f.2, rfl, rfl, rfl⟩

/-- A second run of `addLicense`, started in the world the first run left:
it leaves the files as they are whenever the detector recognises what a
successful first write put into the file. -/
theorem addLicense_second_run {Tmpl Data : Type} (lowerRune : Nat → Nat)
    (compileGlob : Bytes → Option (Bytes → Bool))
    (prefixFn : Tmpl → Data → Bytes → Bytes → Bytes → HeaderResult)
    (verbose : Bool) (path : Bytes) (fmode : Nat) (tmpl : Tmpl) (data : Data)
    (ignoredPaths : List Bytes) (extensions : FileExtensions) (pats : List Bytes)
    (w : World) (r1 : Bool × Option GoError) (w1 : World)
    (hrun : addLicense lowerRune compileGlob prefixFn verbose path fmode tmpl data
      ignoredPaths extensions pats w = some (r1, w1))
    (hdet : r1 = (true, none) → ∀ c m, w1.files path = some (c, m) →
      hasLicense lowerRune c pats = true) :
    ∃ r2 w2, addLicense lowerRune compileGlob prefixFn verbose path fmode tmpl data
        ignoredPaths extensions pats w1 = some (r2, w2) ∧
      w2.files = w1.files ∧
      (r1 = (true, none) → r2 = (false, none) ∧ w2.trace = w1.trace ++ [.readFile path]) := by
  unfold addLicense at hrun ⊢
  cases hign : pathInIgnoredPaths compileGlob path ignoredPaths with
  | none => simp [hign] at hrun
  | some ig =>
    cases ig with
    | true =>
      simp only [hign, Option.some.injEq, Prod.mk.injEq] at hrun
      simp only [hign]
      obtain ⟨rfl, rfl⟩ := hrun
      refine ⟨_, _, rfl, ?_, ?_⟩
      · cases verbose <;> rfl
      · intro h
        cases h
    | false =>
      simp only [hign] at hrun ⊢
      rcases hlic : licenseHeader lowerRune prefixFn path tmpl data extensions with ⟨lic, err⟩
      rw [hlic] at hrun
      simp only at hrun ⊢
      by_cases hv : (lic.isNone && err.isNone && verbose) = true
      · simp only [hv, if_true, Option.some.injEq, Prod.mk.injEq] at hrun
        simp only [hv, if_true]
        obtain ⟨rfl, rfl⟩ := hrun
        exact ⟨_, _, rfl, rfl, fun h => by cases h⟩
      · simp only [hv, if_false] at hrun ⊢
        cases err with
        | some e =>
          simp only [Option.some.injEq, Prod.mk.injEq] at hrun
          obtain ⟨rfl, rfl⟩ := hrun
          exact ⟨_, _, rfl, rfl, fun h => by cases h⟩
        | none =>
          cases lic with
          | none =>
            simp only [Option.some.injEq, Prod.mk.injEq] at hrun
            obtain ⟨rfl, rfl⟩ := hrun
            exact ⟨_, _, rfl, rfl, fun h => by cases h⟩
          | some l =>
            simp only [Bool.false_eq_true, if_false] at hrun ⊢
            have hrd := ioutilReadFile_world path w
            by_cases hc : ((ioutilReadFile path w).1.2.isSome ||
                hasLicense lowerRune (ioutilReadFile path w).1.1 pats) = true
            · rw [if_pos hc] at hrun
              simp only [Option.some.injEq, Prod.mk.injEq] at hrun
              obtain ⟨rfl, rfl⟩ := hrun
              have hsame : (ioutilReadFile path (ioutilReadFile path w).2).1
                  = (ioutilReadFile path w).1 :=
                ioutilReadFile_congr path w _ (by rw [hrd]; rfl) (by rw [hrd]; rfl)
              simp only [hsame, hc, if_true]
              refine ⟨_, _, rfl, ?_, fun h => ?_⟩
              · rw [ioutilReadFile_world]
                rfl
              · simp only [Prod.mk.injEq, Bool.false_eq_true, false_and] at h
            · rw [if_neg hc] at hrun
              simp only [Option.some.injEq, Prod.mk.injEq] at hrun
              obtain ⟨rfl, rfl⟩ := hrun
              rw [Bool.or_eq_true, not_or] at hc
              obtain ⟨hok, hnolic⟩ := hc
              rw [Option.isSome_iff_ne_none, not_not] at hok
              obtain ⟨b, m, hre, hfi, hb⟩ := ioutilReadFile_of_ok path w hok
              rw [hrd] at hdet ⊢
              simp only [hb] at hnolic hdet ⊢
              cases hw : w.writeErr path with
              | some e =>
                have hfiles := ioutilWriteFile_files_fail path (insertHeader lowerRune b l)
                  fmode (w.emit (.readFile path)) e hw
                have hsame : (ioutilReadFile path (ioutilWriteFile path
                    (insertHeader lowerRune b l) fmode (w.emit (.readFile path))).2).1
                    = (ioutilReadFile path w).1 :=
                  ioutilReadFile_congr path w _ (by rw [hfiles]; rfl)
                    (by rw [ioutilWriteFile_readErr]; rfl)
                simp only [hsame, hb, hok]
                simp only [Option.isSome_none, Bool.false_or, hnolic, Bool.false_eq_true,
                  if_false]
                refine ⟨_, _, rfl, ?_, fun h => ?_⟩
                · rw [ioutilWriteFile_files_fail _ _ _ _ e, ioutilReadFile_world]
                  · rfl
                  · rw [ioutilReadFile_world, World.emit_writeErr, ioutilWriteFile_writeErr]
                    exact hw
                · rw [ioutilWriteFile_err] at h
                  simp only [World.emit_writeErr, hw, Prod.mk.injEq, true_and] at h
                  cases h
              | none =>
                have hfile1 := ioutilWriteFile_files_ok path (insertHeader lowerRune b l) b
                  fmode m (w.emit (.readFile path)) hw hfi
                have hlic1 := hdet (by rw [ioutilWriteFile_err]; exact congrArg _ hw) _ _ hfile1
                have hread1 := ioutilReadFile_ok path (insertHeader lowerRune b l) m
                  (ioutilWriteFile path (insertHeader lowerRune b l) fmode
                    (w.emit (.readFile path))).2
                  (by rw [ioutilWriteFile_readErr]; exact hre) hfile1
                rw [hread1]
                simp only [Option.isSome_none, Bool.false_or, hlic1, if_true]
                exact ⟨_, _, rfl, rfl, fun _ => ⟨rfl, rfl⟩⟩

/-- C2, as stated, fails: with the custom detection pattern
"spdx-license-identifier" and a header that reads "// Copyright 2024 Acme",
the second run on `main.go` does not detect the header the first run
inserted; it returns `(true, nil)` again and the file then holds the header
twice. -/
theorem addLicense_twice_differs :
    (addLicenseTwice id sampleGlob sampleHeader false (str "main.go") 420 () () [] []
        [str "spdx-license-identifier"] (sampleWorld (str "main.go") (str "package main\n"))).map
      (fun x => (x.1.1, x.1.2.files (str "main.go")))
    = some ((true, none), some (str "// Copyright 2024 Acme\n\npackage main\n", 420)) ∧
    (addLicenseTwice id sampleGlob sampleHeader false (str "main.go") 420 () () [] []
        [str "spdx-license-identifier"] (sampleWorld (str "main.go") (str "package main\n"))).map
      (fun x => (x.2.1, x.2.2.files (str "main.go")))
    = some ((true, none),
        some (str "// Copyright 2024 Acme\n\n// Copyright 2024 Acme\n\npackage main\n", 420)) := by
  decide

/-! ## Claims on the path classifier -/

theorem stringInSlice_iff (a : Bytes) (list : List Bytes) :
    stringInSlice a list = true ↔ a ∈ list := by
  induction list with
  | nil => simp [stringInSlice]
  | cons b list ih =>
    simp only [stringInSlice, List.mem_cons]
    by_cases h : a = b
    · simp [h]
    · simp [h, ih]

theorem licenseHeaderLoop_none {Tmpl Data : Type}
    (prefixFn : Tmpl → Data → Bytes → Bytes → Bytes → HeaderResult)
    (tmpl : Tmpl) (data : Data) (key : Bytes) (extensions : FileExtensions)
    (hno : ∀ e ∈ extensions, key ∉ e.Extensions) :
    licenseHeaderLoop prefixFn tmpl data key extensions = (none, none) := by
  induction extensions with
  | nil => rfl
  | cons e es ih =>
    have he : stringInSlice key e.Extensions = false := by
      rw [← Bool.not_eq_true, stringInSlice_iff]
      exact hno e (List.mem_cons_self _ _)
    simp only [licenseHeaderLoop, he, Bool.false_eq_true, if_false]
    exact ih (fun e1 h1 => hno e1 (List.mem_cons_of_mem _ h1))

theorem licenseHeaderLoop_first {Tmpl Data : Type}
    (prefixFn : Tmpl → Data → Bytes → Bytes → Bytes → HeaderResult)
    (tmpl : Tmpl) (data : Data) (key : Bytes) (before after : FileExtensions)
    (e : FileExtensionsEntry) (hbefore : ∀ e1 ∈ before, key ∉ e1.Extensions)
    (he : key ∈ e.Extensions) :
    licenseHeaderLoop prefixFn tmpl data key (before ++ e :: after)
      = prefixFn tmpl data e.Top e.Mid e.Bot := by
  induction before with
  | nil =>
    simp only [List.nil_append, licenseHeaderLoop, (stringInSlice_iff _ _).mpr he, if_true]
  | cons e0 es ih =>
    have h0 : stringInSlice key e0.Extensions = false := by
      rw [← Bool.not_eq_true, stringInSlice_iff]
      exact hbefore e0 (List.mem_cons_self _ _)
    simp only [List.cons_append, licenseHeaderLoop, h0, Bool.false_eq_true, if_false]
    exact ih (fun e1 h1 => hbefore e1 (List.mem_cons_of_mem _ h1))

theorem licenseHeader_custom {Tmpl Data : Type} (lowerRune : Nat → Nat)
    (prefixFn : Tmpl → Data → Bytes → Bytes → Bytes → HeaderResult)
    (path : Bytes) (tmpl : Tmpl) (data : Data) (extensions : FileExtensions)
    (hne : extensions ≠ []) :
    licenseHeader lowerRune prefixFn path tmpl data extensions
      = licenseHeaderLoop prefixFn tmpl data (fileExtension lowerRune path) extensions := by
  have hlen : extensions.length ≠ 0 := fun h => hne (List.length_eq_zero.mp h)
  unfold licenseHeader
  simp only [hlen, ne_eq, not_false_eq_true, if_true]

/-- C7. With a non-empty custom rule table, a path whose extension key is in
no custom rule is unsupported: `licenseHeader` returns `(nil, nil)`, whether
or not the built-in table knows the key.  The built-in table plays no part
then: whatever `licenseHeader` returns for a non-empty custom table is either
`(nil, nil)` or the header built from a custom rule that contains the key. -/
theorem licenseHeader_custom_unsupported {Tmpl Data : Type} (lowerRune : Nat → Nat)
    (prefixFn : Tmpl → Data → Bytes → Bytes → Bytes → HeaderResult)
    (path : Bytes) (tmpl : Tmpl) (data : Data) (extensions : FileExtensions)
    (hne : extensions ≠ []) :
    ((∀ e ∈ extensions, fileExtension lowerRune path ∉ e.Extensions) →
      licenseHeader lowerRune prefixFn path tmpl data extensions = (none, none)) ∧
    (licenseHeader lowerRune prefixFn path tmpl data extensions = (none, none) ∨
      ∃ e ∈ extensions, fileExtension lowerRune path ∈ e.Extensions ∧
        licenseHeader lowerRune prefixFn path tmpl data extensions
          = prefixFn tmpl data e.Top e.Mid e.Bot) := by
  rw [licenseHeader_custom lowerRune prefixFn path tmpl data extensions hne]
  refine ⟨licenseHeaderLoop_none prefixFn tmpl data _ extensions, ?_⟩
  generalize fileExtension lowerRune path = key
  clear hne
  induction extensions with
  | nil => exact Or.inl rfl
  | cons e es ih =>
    by_cases he : key ∈ e.Extensions
    · refine Or.inr ⟨e, List.mem_cons_self _ _, he, ?_⟩
      simp only [licenseHeaderLoop, (stringInSlice_iff _ _).mpr he, if_true]
    · have h0 : stringInSlice key e.Extensions = false := by
        rw [← Bool.not_eq_true, stringInSlice_iff]
        exact he
      simp only [licenseHeaderLoop, h0, Bool.false_eq_true, if_false]
      rcases ih with h | ⟨e1, h1, hk, heq⟩
      · exact Or.inl h
      · exact Or.inr ⟨e1, List.mem_cons_of_mem _ h1, hk, heq⟩

theorem licenseHeader_custom_unsupported_witness :
    licenseHeader id sampleHeader (str "main.go") () ()
        [⟨[str ".py", str ".sh"], str "", str "# ", str ""⟩] = (none, none) ∧
    licenseHeader id sampleHeader (str "main.go") () () []
      = (some (str "// Copyright 2024 Acme\n\n"), none) :=
  ⟨(licenseHeader_custom_unsupported id sampleHeader (str "main.go") () ()
      [⟨[str ".py", str ".sh"], str "", str "# ", str ""⟩] (by decide)).1 (by decide),
    by decide⟩

/-- C8. First match wins: in a custom rule table, when no rule before `e`
contains the extension key of the path and `e` does, `licenseHeader` returns
the header built with the `Top`, `Mid` and `Bot` of `e`, whatever rules
follow `e`. -/
theorem licenseHeader_first_match {Tmpl Data : Type} (lowerRune : Nat → Nat)
    (prefixFn : Tmpl → Data → Bytes → Bytes → Bytes → HeaderResult)
    (path : Bytes) (tmpl : Tmpl) (data : Data) (before after : FileExtensions)
    (e : FileExtensionsEntry)
    (hbefore : ∀ e1 ∈ before, fileExtension lowerRune path ∉ e1.Extensions)
    (he : fileExtension lowerRune path ∈ e.Extensions) :
    licenseHeader lowerRune prefixFn path tmpl data (before ++ e :: after)
      = prefixFn tmpl data e.Top e.Mid e.Bot := by
  rw [licenseHeader_custom lowerRune prefixFn path tmpl data _ (by simp)]
  exact licenseHeaderLoop_first prefixFn tmpl data _ before after e hbefore he

theorem licenseHeader_first_match_witness :
    licenseHeader id sampleHeader (str "Main.GO") () ()
        [⟨[str ".py"], str "", str "# ", str ""⟩,
         ⟨[str ".c", str ".go"], str "/*", str " * ", str " */"⟩,
         ⟨[str ".go"], str "", str "// ", str ""⟩]
      = (some (str " * Copyright 2024 Acme\n\n"), none) :=
  (licenseHeader_first_match id sampleHeader (str "Main.GO") () ()
      [⟨[str ".py"], str "", str "# ", str ""⟩] [⟨[str ".go"], str "", str "// ", str ""⟩]
      ⟨[str ".c", str ".go"], str "/*", str " * ", str " */"⟩ (by decide) (by decide)).trans
    (by decide)

theorem extLoop_skip (r rest acc : Bytes) (hr : ∀ c ∈ r, c ≠ 47 ∧ c ≠ 46) :
    extLoop (r ++ rest) acc = extLoop rest (r.reverse ++ acc) := by
  induction r generalizing acc with
  | nil => rfl
  | cons c r ih =>
    have hc := hr c (List.mem_cons_self _ _)
    rw [List.cons_append, extLoop, if_neg hc.1, if_neg hc.2,
      ih _ (fun x hx => hr x (List.mem_cons_of_mem _ hx)), List.reverse_cons,
      List.append_assoc, List.singleton_append]

theorem ext_of_dot (front suf : Bytes) (hsep : 47 ∉ suf) (hdot : 46 ∉ suf) :
    ext (front ++ 46 :: suf) = 46 :: suf := by
  unfold ext
  rw [List.reverse_append, List.reverse_cons, List.append_assoc, List.singleton_append,
    extLoop_skip _ _ _ (fun c hc => by
      rw [List.mem_reverse] at hc
      exact ⟨fun h => hsep (h ▸ hc), fun h => hdot (h ▸ hc)⟩)]
  simp [extLoop]

theorem ext_of_no_dot (dir elem : Bytes) (hsep : 47 ∉ elem) (hdot : 46 ∉ elem)
    (hdir : dir = [] ∨ [47] <:+ dir) : ext (dir ++ elem) = [] := by
  unfold ext
  rw [List.reverse_append, extLoop_skip _ _ _ (fun c hc => by
      rw [List.mem_reverse] at hc
      exact ⟨fun h => hsep (h ▸ hc), fun h => hdot (h ▸ hc)⟩)]
  rcases hdir with rfl | ⟨t, rfl⟩
  · rfl
  · simp [extLoop]

theorem takeWhile_append_stop (p : Nat → Bool) (l rest : Bytes) (hl : ∀ c ∈ l, p c = true)
    (hrest : rest = [] ∨ ∃ c t, rest = c :: t ∧ p c = false) :
    (l ++ rest).takeWhile p = l := by
  induction l with
  | nil =>
    rcases hrest with rfl | ⟨c, t, rfl, hc⟩
    · rfl
    · simp [List.takeWhile, hc]
  | cons a l ih =>
    rw [List.cons_append, List.takeWhile_cons, if_pos (hl a (List.mem_cons_self _ _)),
      ih (fun c hc => hl c (List.mem_cons_of_mem _ hc))]

theorem base_of_elem (dir elem : Bytes) (hne : elem ≠ []) (hsep : 47 ∉ elem)
    (hdir : dir = [] ∨ [47] <:+ dir) : base (dir ++ elem) = elem := by
  obtain ⟨a, l, hrev⟩ := List.exists_cons_of_ne_nil
    (show elem.reverse ≠ [] from fun h => hne (List.reverse_eq_nil_iff.mp h))
  have ha : a ≠ 47 := fun h => hsep (by
    rw [← List.mem_reverse, hrev, h]
    exact List.mem_cons_self _ _)
  have hall : ∀ c ∈ elem.reverse, (c != 47) = true := by
    intro c hc
    rw [List.mem_reverse] at hc
    simp only [bne_iff_ne, ne_eq]
    exact fun h => hsep (h ▸ hc)
  have hstop : dir.reverse = [] ∨ ∃ c t, dir.reverse = c :: t ∧ (c != 47) = false := by
    rcases hdir with rfl | ⟨t, rfl⟩
    · exact Or.inl rfl
    · exact Or.inr ⟨47, t.reverse, by simp, by decide⟩
  have hdrop : (dir ++ elem).reverse.dropWhile (fun c => c == 47) = (dir ++ elem).reverse := by
    rw [List.reverse_append, hrev, List.cons_append,
      List.dropWhile_cons_of_neg (by simpa using ha)]
  unfold base
  rw [if_neg (by simp [hne])]
  simp only [hdrop, List.reverse_reverse]
  rw [List.reverse_append, takeWhile_append_stop _ _ _ hall hstop, List.reverse_reverse,
    if_neg hne]

theorem encodeRune_bytes (v : Nat) : ∀ c ∈ encodeRune v, (c = v ∧ v ≤ 127) ∨ 128 ≤ c := by
  intro c hc
  unfold encodeRune at hc
  split_ifs at hc <;>
    simp only [List.mem_cons, List.mem_singleton, List.not_mem_nil, or_false] at hc <;>
    omega

theorem asciiLower_not_upper (c : Nat) : ¬ (65 ≤ asciiLower c ∧ asciiLower c ≤ 90) := by
  unfold asciiLower
  split <;> omega

theorem mapRunesFrom_not_upper (lowerRune : Nat → Nat)
    (hlow : ∀ r, 127 < r → ¬ (65 ≤ lowerRune r ∧ lowerRune r ≤ 90)) (s : Bytes) :
    ∀ skip, ∀ c ∈ mapRunesFrom (unicodeToLower lowerRune) skip s, ¬ (65 ≤ c ∧ c ≤ 90) := by
  induction s with
  | nil => intro skip c hc; simp [mapRunesFrom] at hc
  | cons a rest ih =>
    intro skip c hc
    cases skip with
    | succ k =>
      rw [mapRunesFrom] at hc
      exact ih k c hc
    | zero =>
      rw [mapRunesFrom, List.mem_append] at hc
      rcases hc with hc | hc
      · rcases encodeRune_bytes _ c hc with ⟨hv, _⟩ | h128
        · rw [hv]
          unfold unicodeToLower
          split
          · exact asciiLower_not_upper _
          · exact hlow _ (by omega)
        · omega
      · exact ih _ c hc

theorem toLower_not_upper (lowerRune : Nat → Nat)
    (hlow : ∀ r, 127 < r → ¬ (65 ≤ lowerRune r ∧ lowerRune r ≤ 90)) (s : Bytes) :
    ∀ c ∈ toLower lowerRune s, ¬ (65 ≤ c ∧ c ≤ 90) := by
  intro c hc
  unfold toLower at hc
  split at hc
  · obtain ⟨x, _, rfl⟩ := List.mem_map.mp hc
    exact asciiLower_not_upper x
  · exact mapRunesFrom_not_upper lowerRune hlow s 0 c hc

/-- C9. Write a name as `dir ++ elem`, where `elem` holds no `/` and `dir`
is empty or ends in `/`, so that `elem` is the final path element.  When
`elem` contains a `.`, `fileExtension` returns the lower-cased suffix of
`elem` that starts at its last `.`; when it contains none, the lower-cased
`filepath.Base` of the name, which is `elem` itself unless `elem` is empty.
The key holds no upper-case ASCII letter (the Unicode table never maps a
rune to one); "Main.GO" and "main.go" both give ".go", and "dir/Dockerfile"
gives "dockerfile". -/
theorem fileExtension_key (lowerRune : Nat → Nat) (dir elem : Bytes) (hsep : 47 ∉ elem)
    (hdir : dir = [] ∨ [47] <:+ dir) :
    (∀ front suf, elem = front ++ 46 :: suf → 46 ∉ suf →
      fileExtension lowerRune (dir ++ elem) = toLower lowerRune (46 :: suf)) ∧
    (46 ∉ elem →
      fileExtension lowerRune (dir ++ elem) = toLower lowerRune (base (dir ++ elem)) ∧
      (elem ≠ [] → base (dir ++ elem) = elem)) ∧
    ((∀ r, 127 < r → ¬ (65 ≤ lowerRune r ∧ lowerRune r ≤ 90)) →
      ∀ c ∈ fileExtension lowerRune (dir ++ elem), ¬ (65 ≤ c ∧ c ≤ 90)) ∧
    fileExtension lowerRune (str "Main.GO") = str ".go" ∧
    fileExtension lowerRune (str "main.go") = str ".go" ∧
    fileExtension lowerRune (str "dir/Dockerfile") = str "dockerfile" := by
  refine ⟨?_, ?_, ?_, ?_, ?_, ?_⟩
  · intro front suf helem hdot
    have hsuf : 47 ∉ suf := fun h => hsep (by
      rw [helem]
      exact List.mem_append_right _ (List.mem_cons_of_mem _ h))
    have hext : ext (dir ++ elem) = 46 :: suf := by
      rw [helem, ← List.append_assoc]
      exact ext_of_dot _ suf hsuf hdot
    unfold fileExtension
    rw [hext, if_pos (List.cons_ne_nil _ _)]
  · intro hdot
    refine ⟨?_, fun hne => base_of_elem dir elem hne hsep hdir⟩
    unfold fileExtension
    rw [ext_of_no_dot dir elem hsep hdot hdir, if_neg (fun h => h rfl)]
  · intro hlow c hc
    unfold fileExtension at hc
    split at hc
    · exact toLower_not_upper lowerRune hlow _ c hc
    · exact toLower_not_upper lowerRune hlow _ c hc
  · have hext : ext (str "Main.GO") = str ".GO" := by decide
    unfold fileExtension
    rw [hext, if_pos (by decide), toLower_of_ascii lowerRune _ (by decide)]
    decide
  · have hext : ext (str "main.go") = str ".go" := by decide
    unfold fileExtension
    rw [hext, if_pos (by decide), toLower_of_ascii lowerRune _ (by decide)]
    decide
  · have hext : ext (str "dir/Dockerfile") = [] := by decide
    have hbase : base (str "dir/Dockerfile") = str "Dockerfile" := by decide
    unfold fileExtension
    rw [hext, if_neg (fun h => h rfl), hbase, toLower_of_ascii lowerRune _ (by decide)]
    decide

theorem fileExtension_key_witness :
    fileExtension id (str "src/" ++ str "Main.GO") = toLower id (str ".GO") ∧
    (∀ c ∈ fileExtension id (str "src/" ++ str "Main.GO"), ¬ (65 ≤ c ∧ c ≤ 90)) ∧
    fileExtension id (str "dir/" ++ str "Dockerfile")
      = toLower id (base (str "dir/" ++ str "Dockerfile")) ∧
    base (str "dir/" ++ str "Dockerfile") = str "Dockerfile" :=
  ⟨(fileExtension_key id (str "src/") (str "Main.GO") (by decide)
      (Or.inr ⟨str "src", by decide⟩)).1 (str "Main") (str "GO") (by decide) (by decide),
    (fileExtension_key id (str "src/") (str "Main.GO") (by decide)
      (Or.inr ⟨str "src", by decide⟩)).2.2.1 (fun r hr h => by simp only [id] at h; omega),
    ((fileExtension_key id (str "dir/") (str "Dockerfile") (by decide)
      (Or.inr ⟨str "dir", by decide⟩)).2.1 (by decide)).1,
    ((fileExtension_key id (str "dir/") (str "Dockerfile") (by decide)
      (Or.inr ⟨str "dir", by decide⟩)).2.1 (by decide)).2 (by decide)⟩

/-- C10. With an empty custom table the built-in table decides: the keys
`.c`, `.h` get the block comment `/*`, ` * `, ` */` and `.js`, `.ts`, `.css`
the block comment `/**`, ` * `, ` */`; `.go`, `.rs`, `.java` get the line
comment `// `; `.py`, `.sh`, `.yaml`, `.yml`, `dockerfile`, `gemfile` get
`# `; `.el`, `.lisp` get `;; `; each line style has empty top and bottom
markers.  A key that the table does not list is unsupported: `licenseHeader`
returns `(nil, nil)`. -/
theorem licenseHeader_builtin {Tmpl Data : Type} (lowerRune : Nat → Nat)
    (prefixFn : Tmpl → Data → Bytes → Bytes → Bytes → HeaderResult)
    (path : Bytes) (tmpl : Tmpl) (data : Data) :
    (fileExtension lowerRune path ∈ [str ".c", str ".h"] →
      licenseHeader lowerRune prefixFn path tmpl data []
        = prefixFn tmpl data (str "/*") (str " * ") (str " */")) ∧
    (fileExtension lowerRune path ∈ [str ".js", str ".ts", str ".css"] →
      licenseHeader lowerRune prefixFn path tmpl data []
        = prefixFn tmpl data (str "/**") (str " * ") (str " */")) ∧
    (fileExtension lowerRune path ∈ [str ".go", str ".rs", str ".java"] →
      licenseHeader lowerRune prefixFn path tmpl data []
        = prefixFn tmpl data (str "") (str "// ") (str "")) ∧
    (fileExtension lowerRune path ∈ [str ".py", str ".sh", str ".yaml", str ".yml",
        str "dockerfile", str "gemfile"] →
      licenseHeader lowerRune prefixFn path tmpl data []
        = prefixFn tmpl data (str "") (str "# ") (str "")) ∧
    (fileExtension lowerRune path ∈ [str ".el", str ".lisp"] →
      licenseHeader lowerRune prefixFn path tmpl data []
        = prefixFn tmpl data (str "") (str ";; ") (str "")) ∧
    (fileExtension lowerRune path ∉ [str ".c", str ".h", str ".js", str ".mjs", str ".cjs",
        str ".jsx", str ".tsx", str ".css", str ".tf", str ".ts", str ".cc", str ".cpp",
        str ".cs", str ".go", str ".hh", str ".hpp", str ".java", str ".m", str ".mm",
        str ".proto", str ".rs", str ".scala", str ".swift", str ".dart", str ".groovy",
        str ".kt", str ".kts", str ".py", str ".sh", str ".yaml", str ".yml",
        str ".dockerfile", str "dockerfile", str ".rb", str "gemfile", str ".el",
        str ".lisp", str ".erl", str ".hs", str ".sql", str ".html", str ".xml", str ".vue",
        str ".php", str ".ml", str ".mli", str ".mll", str ".mly"] →
      licenseHeader lowerRune prefixFn path tmpl data [] = (none, none)) := by
  unfold licenseHeader
  simp only [List.length_nil, ne_eq, not_true_eq_false, if_false]
  generalize fileExtension lowerRune path = key
  refine ⟨?_, ?_, ?_, ?_, ?_, ?_⟩
  · intro h
    simp only [List.mem_cons, List.mem_singleton, List.not_mem_nil, or_false] at h
    rcases h with rfl | rfl <;> rw [if_pos (by decide)]
  · intro h
    simp only [List.mem_cons, List.mem_singleton, List.not_mem_nil, or_false] at h
    rcases h with rfl | rfl | rfl <;>
      repeat (first | rw [if_pos (by decide)] | rw [if_neg (by decide)])
  · intro h
    simp only [List.mem_cons, List.mem_singleton, List.not_mem_nil, or_false] at h
    rcases h with rfl | rfl | rfl <;>
      repeat (first | rw [if_pos (by decide)] | rw [if_neg (by decide)])
  · intro h
    simp only [List.mem_cons, List.mem_singleton, List.not_mem_nil, or_false] at h
    rcases h with rfl | rfl | rfl | rfl | rfl | rfl <;>
      repeat (first | rw [if_pos (by decide)] | rw [if_neg (by decide)])
  · intro h
    simp only [List.mem_cons, List.mem_singleton, List.not_mem_nil, or_false] at h
    rcases h with rfl | rfl <;>
      repeat (first | rw [if_pos (by decide)] | rw [if_neg (by decide)])
  · intro h
    simp only [List.mem_cons, List.mem_singleton, List.not_mem_nil, or_false, not_or] at h
    simp only [List.mem_cons, List.mem_singleton, List.not_mem_nil, or_false, h, if_false]

theorem licenseHeader_builtin_witness :
    licenseHeader id sampleHeader (str "lib/util.C") () () []
      = (some (str " * Copyright 2024 Acme\n\n"), none) ∧
    licenseHeader id sampleHeader (str "web/app.ts") () () []
      = (some (str " * Copyright 2024 Acme\n\n"), none) ∧
    licenseHeader id sampleHeader (str "src/lib.rs") () () []
      = (some (str "// Copyright 2024 Acme\n\n"), none) ∧
    licenseHeader id sampleHeader (str "build/Dockerfile") () () []
      = (some (str "# Copyright 2024 Acme\n\n"), none) ∧
    licenseHeader id sampleHeader (str "init.el") () () []
      = (some (str ";; Copyright 2024 Acme\n\n"), none) ∧
    licenseHeader id sampleHeader (str "notes.txt") () () [] = (none, none) :=
  ⟨((licenseHeader_builtin id sampleHeader (str "lib/util.C") () ()).1 (by decide)).trans
      (by decide),
    ((licenseHeader_builtin id sampleHeader (str "web/app.ts") () ()).2.1 (by decide)).trans
      (by decide),
    ((licenseHeader_builtin id sampleHeader (str "src/lib.rs") () ()).2.2.1 (by decide)).trans
      (by decide),
    ((licenseHeader_builtin id sampleHeader (str "build/Dockerfile") () ()).2.2.2.1
      (by decide)).trans (by decide),
    ((licenseHeader_builtin id sampleHeader (str "init.el") () ()).2.2.2.2.1
      (by decide)).trans (by decide),
    (licenseHeader_builtin id sampleHeader (str "notes.txt") () ()).2.2.2.2.2 (by decide)⟩

/-! ## Claims on skipped files and on the check-only task -/

theorem pathInIgnoredPaths_isSome (compileGlob : Bytes → Option (Bytes → Bool)) (path : Bytes)
    (pats : List Bytes) (hglob : ∀ p ∈ pats, (compileGlob p).isSome = true) :
    ∃ r, pathInIgnoredPaths compileGlob path pats = some r := by
  induction pats with
  | nil => exact ⟨false, rfl⟩
  | cons p ps ih =>
    obtain ⟨g, hg⟩ := Option.isSome_iff_exists.mp (hglob p (List.mem_cons_self _ _))
    simp only [pathInIgnoredPaths, hg]
    by_cases hm : g path = true
    · exact ⟨true, by simp [hm]⟩
    · simp only [hm, Bool.false_eq_true, if_false]
      exact ih (fun q hq => hglob q (List.mem_cons_of_mem _ hq))

theorem licenseHeader_builtin_none {Tmpl Data : Type} (lowerRune : Nat → Nat)
    (prefixFn : Tmpl → Data → Bytes → Bytes → Bytes → HeaderResult)
    (path : Bytes) (tmpl : Tmpl) (data : Data)
    (hkey : fileExtension lowerRune path ∉ builtinKeys) :
    licenseHeader lowerRune prefixFn path tmpl data [] = (none, none) := by
  unfold licenseHeader
  simp only [List.length_nil, ne_eq, not_true_eq_false, if_false]
  revert hkey
  generalize fileExtension lowerRune path = key
  intro h
  simp only [builtinKeys, List.mem_cons, List.mem_singleton, List.not_mem_nil, or_false,
    not_or] at h
  simp only [List.mem_cons, List.mem_singleton, List.not_mem_nil, or_false, h, if_false]

/-- The header of a path whose key matches no rule of the applicable table. -/
theorem licenseHeader_unsupported {Tmpl Data : Type} (lowerRune : Nat → Nat)
    (prefixFn : Tmpl → Data → Bytes → Bytes → Bytes → HeaderResult)
    (path : Bytes) (tmpl : Tmpl) (data : Data) (extensions : FileExtensions)
    (hkey : (extensions ≠ [] ∧ ∀ e ∈ extensions, fileExtension lowerRune path ∉ e.Extensions) ∨
      (extensions = [] ∧ fileExtension lowerRune path ∉ builtinKeys)) :
    licenseHeader lowerRune prefixFn path tmpl data extensions = (none, none) := by
  rcases hkey with ⟨hne, hno⟩ | ⟨rfl, hno⟩
  · rw [licenseHeader_custom lowerRune prefixFn path tmpl data extensions hne]
    exact licenseHeaderLoop_none prefixFn tmpl data _ extensions hno
  · exact licenseHeader_builtin_none lowerRune prefixFn path tmpl data hno

/-! ## Claims on ignore patterns that may fail to compile -/

/-- The loop of `pathInIgnoredPaths` gets through when every pattern it
reaches compiles, that is every pattern that no matching pattern precedes. -/
theorem pathInIgnoredPaths_of_reached (compileGlob : Bytes → Option (Bytes → Bool))
    (path : Bytes) (pats : List Bytes)
    (hglob : ∀ before p after, pats = before ++ p :: after →
      (∀ q ∈ before, ∀ g, compileGlob q = some g → g path = false) →
      (compileGlob p).isSome = true) :
    ∃ r, pathInIgnoredPaths compileGlob path pats = some r := by
  induction pats with
  | nil => exact ⟨false, rfl⟩
  | cons p ps ih =>
    obtain ⟨g, hg⟩ := Option.isSome_iff_exists.mp
      (hglob [] p ps rfl (fun q hq => absurd hq (List.not_mem_nil q)))
    simp only [pathInIgnoredPaths, hg]
    by_cases hm : g path = true
    · exact ⟨true, by simp [hm]⟩
    · simp only [hm, Bool.false_eq_true, if_false]
      refine ih (fun before q after hps hbefore => ?_)
      refine hglob (p :: before) q after (by rw [hps]; rfl) (fun x hx g1 hg1 => ?_)
      rcases List.mem_cons.mp hx with rfl | hx
      · rw [hg] at hg1
        cases hg1
        simpa using hm
      · exact hbefore x hx g1 hg1

theorem reached_of_all_compile (compileGlob : Bytes → Option (Bytes → Bool))
    (path : Bytes) (pats : List Bytes) (hall : ∀ p ∈ pats, (compileGlob p).isSome = true) :
    ∀ before p after, pats = before ++ p :: after →
      (∀ q ∈ before, ∀ g, compileGlob q = some g → g path = false) →
      (compileGlob p).isSome = true := by
  intro before p after hp _
  exact hall p (by rw [hp]; simp)

/-- The loop of `pathInIgnoredPaths` answers true when a pattern matches the
path and every pattern before it compiles. -/
theorem pathInIgnoredPaths_of_first_match (compileGlob : Bytes → Option (Bytes → Bool))
    (path : Bytes) (before : List Bytes) (p : Bytes) (after : List Bytes) (g : Bytes → Bool)
    (hbefore : ∀ q ∈ before, (compileGlob q).isSome = true)
    (hp : compileGlob p = some g) (hmatch : g path = true) :
    pathInIgnoredPaths compileGlob path (before ++ p :: after) = some true := by
  induction before with
  | nil => simp [pathInIgnoredPaths, hp, hmatch]
  | cons q qs ih =>
    obtain ⟨g1, hg1⟩ := Option.isSome_iff_exists.mp (hbefore q (List.mem_cons_self _ _))
    simp only [List.cons_append, pathInIgnoredPaths, hg1]
    by_cases hm : g1 path = true
    · simp [hm]
    · simp only [hm, Bool.false_eq_true, if_false]
      exact ih (fun x hx => hbefore x (List.mem_cons_of_mem _ hx))

/-- C11, as stated, fails: with the ignore pattern `[`, which does not
compile, `glob.MustCompile` panics on line 263 and `addLicense` does not
return for `notes.txt`, a path whose key `.txt` matches no rule of the
built-in table. -/
theorem addLicense_unsupported_panics :
    licenseHeader id sampleHeader (str "notes.txt") () () [] = (none, none) ∧
    (addLicense id sampleGlobStrict sampleHeader false (str "notes.txt") 420 () ()
      [str "["] [] [] (sampleWorld (str "notes.txt") (str "hello\n"))).isSome = false := by
  decide

/-- C11 (amended). When every ignore pattern that the loop of
`pathInIgnoredPaths` reaches compiles (every pattern that no pattern matching
the path precedes), and the extension key of the path matches no rule of the
applicable table (the custom table if it is not empty, the built-in one
otherwise), `addLicense` returns `(false, nil)`, with the verbose flag set or
not; it leaves every file as it is and the only events it adds are log lines,
no read and no write. -/
theorem addLicense_unsupported {Tmpl Data : Type} (lowerRune : Nat → Nat)
    (compileGlob : Bytes → Option (Bytes → Bool))
    (prefixFn : Tmpl → Data → Bytes → Bytes → Bytes → HeaderResult)
    (verbose : Bool) (path : Bytes) (fmode : Nat) (tmpl : Tmpl) (data : Data)
    (ignoredPaths : List Bytes) (extensions : FileExtensions) (pats : List Bytes)
    (w : World)
    (hglob : ∀ before p after, ignoredPaths = before ++ p :: after →
      (∀ q ∈ before, ∀ g, compileGlob q = some g → g path = false) →
      (compileGlob p).isSome = true)
    (hkey : (extensions ≠ [] ∧ ∀ e ∈ extensions, fileExtension lowerRune path ∉ e.Extensions) ∨
      (extensions = [] ∧ fileExtension lowerRune path ∉ builtinKeys)) :
    ∃ w1 evs, addLicense lowerRune compileGlob prefixFn verbose path fmode tmpl data
        ignoredPaths extensions pats w = some ((false, none), w1) ∧
      w1.files = w.files ∧ w1.trace = w.trace ++ evs ∧
      ∀ e ∈ evs, e.touchesFile = false := by
  have hlic := licenseHeader_unsupported lowerRune prefixFn path tmpl data extensions hkey
  obtain ⟨r, hr⟩ := pathInIgnoredPaths_of_reached compileGlob path ignoredPaths hglob
  unfold addLicense
  cases r with
  | true =>
    cases verbose with
    | true =>
      refine ⟨w.emit (.logIgnored path), [.logIgnored path], ?_, rfl, rfl, ?_⟩
      · simp only [hr, if_true]
      · simp [Event.touchesFile]
    | false =>
      refine ⟨w, [], ?_, rfl, (List.append_nil _).symm, ?_⟩
      · simp only [hr, Bool.false_eq_true, if_false]
      · simp
  | false =>
    cases verbose with
    | true =>
      refine ⟨w.emit (.logUnsupported path), [.logUnsupported path], ?_, rfl, rfl, ?_⟩
      · simp only [hr, hlic, Option.isNone_none, Bool.and_self, if_true]
      · simp [Event.touchesFile]
    | false =>
      refine ⟨w, [], ?_, rfl, (List.append_nil _).symm, ?_⟩
      · simp only [hr, hlic, Option.isNone_none, Bool.and_false, Bool.false_eq_true, if_false]
      · simp

theorem addLicense_unsupported_witness :
    (∃ w1 evs, addLicense id sampleGlobStrict sampleHeader true (str "notes.txt") 420 () ()
        [str "vendor.go"] [] [] (sampleWorld (str "notes.txt") (str "hello\n"))
          = some ((false, none), w1) ∧
      w1.files = (sampleWorld (str "notes.txt") (str "hello\n")).files ∧
      w1.trace = (sampleWorld (str "notes.txt") (str "hello\n")).trace ++ evs ∧
      ∀ e ∈ evs, e.touchesFile = false) ∧
    (∃ w1 evs, addLicense id sampleGlobStrict sampleHeader false (str "main.go") 420 () ()
        [str "main.go", str "["] [⟨[str ".py"], str "", str "# ", str ""⟩] []
        (sampleWorld (str "main.go") (str "package main\n")) = some ((false, none), w1) ∧
      w1.files = (sampleWorld (str "main.go") (str "package main\n")).files ∧
      w1.trace = (sampleWorld (str "main.go") (str "package main\n")).trace ++ evs ∧
      ∀ e ∈ evs, e.touchesFile = false) :=
  ⟨addLicense_unsupported id sampleGlobStrict sampleHeader true (str "notes.txt") 420 () ()
      [str "vendor.go"] [] [] (sampleWorld (str "notes.txt") (str "hello\n"))
      (reached_of_all_compile sampleGlobStrict _ _ (by decide)) (Or.inr ⟨rfl, by decide⟩),
    addLicense_unsupported id sampleGlobStrict sampleHeader false (str "main.go") 420 () ()
      [str "main.go", str "["] [⟨[str ".py"], str "", str "# ", str ""⟩] []
      (sampleWorld (str "main.go") (str "package main\n"))
      (fun before p after hp hbefore => by
        rcases before with _ | ⟨q, before⟩
        · simp only [List.nil_append, List.cons.injEq] at hp
          rw [← hp.1]
          decide
        · simp only [List.cons_append, List.cons.injEq] at hp
          have hq := hbefore q (List.mem_cons_self _ _) (fun path => path == str "main.go")
            (by rw [← hp.1, sampleGlobStrict, if_neg (by decide)])
          exact absurd hq (by decide))
      (Or.inl ⟨by decide, by decide⟩)⟩

/-- C13, as stated, fails: with the ignore patterns `[` and `vendor.go`, the
path `vendor.go` matches the second pattern, but `glob.MustCompile` panics on
the first: neither `addLicense` nor the check-only task returns. -/
theorem ignored_path_panics :
    (sampleGlobStrict (str "vendor.go")).map (fun g => g (str "vendor.go")) = some true ∧
    (addLicense id sampleGlobStrict sampleHeader false (str "vendor.go") 420 () ()
      [str "[", str "vendor.go"] [] []
      (sampleWorld (str "vendor.go") (str "package vendor\n"))).isSome = false ∧
    (fileTask id sampleGlobStrict sampleHeader true false ⟨str "vendor.go", 420⟩ () ()
      [str "[", str "vendor.go"] [] []
      (sampleWorld (str "vendor.go") (str "package vendor\n"))).isSome = false := by
  decide

/-- C13 (amended). Ignore precedence: when an ignore pattern matches the path
and every pattern before it in the list compiles, neither mode reads or
writes the file.  `addLicense` returns `(false, nil)` and adds at most the
log line "ignored"; the per-file task, in check-only mode and in apply mode,
returns with every file as it was and without a read or a write among the
events it adds. -/
theorem ignored_path_untouched {Tmpl Data : Type} (lowerRune : Nat → Nat)
    (compileGlob : Bytes → Option (Bytes → Bool))
    (prefixFn : Tmpl → Data → Bytes → Bytes → Bytes → HeaderResult)
    (verbose : Bool) (f : File) (tmpl : Tmpl) (data : Data)
    (before : List Bytes) (p : Bytes) (after : List Bytes) (g : Bytes → Bool)
    (extensions : FileExtensions) (pats : List Bytes) (w : World)
    (hbefore : ∀ q ∈ before, (compileGlob q).isSome = true)
    (hp : compileGlob p = some g) (hmatch : g f.path = true) :
    (∃ w1 evs, addLicense lowerRune compileGlob prefixFn verbose f.path f.mode tmpl data
        (before ++ p :: after) extensions pats w = some ((false, none), w1) ∧
      w1.files = w.files ∧ w1.trace = w.trace ++ evs ∧
      ∀ e ∈ evs, e = .logIgnored f.path) ∧
    (∀ checkonly, ∃ r w1 evs, fileTask lowerRune compileGlob prefixFn checkonly verbose f tmpl
        data (before ++ p :: after) extensions pats w = some (r, w1) ∧
      w1.files = w.files ∧ w1.trace = w.trace ++ evs ∧
      ∀ e ∈ evs, e.touchesFile = false) := by
  have hign := pathInIgnoredPaths_of_first_match compileGlob f.path before p after g hbefore
    hp hmatch
  have hadd : addLicense lowerRune compileGlob prefixFn verbose f.path f.mode tmpl data
      (before ++ p :: after) extensions pats w
      = some ((false, none), if verbose then w.emit (.logIgnored f.path) else w) := by
    unfold addLicense
    simp only [hign]
  refine ⟨?_, ?_⟩
  · rw [hadd]
    cases verbose with
    | true => exact ⟨_, [.logIgnored f.path], rfl, rfl, rfl, by simp⟩
    | false => exact ⟨_, [], rfl, rfl, (List.append_nil _).symm, by simp⟩
  · intro checkonly
    cases checkonly with
    | false =>
      unfold fileTask
      simp only [Bool.false_eq_true, if_false, hadd, Bool.and_false]
      cases verbose with
      | true => exact ⟨_, _, [.logIgnored f.path], rfl, rfl, rfl, by simp [Event.touchesFile]⟩
      | false => exact ⟨_, _, [], rfl, rfl, (List.append_nil _).symm, by simp⟩
    | true =>
      unfold fileTask
      simp only [if_true]
      rcases hlic : licenseHeader lowerRune prefixFn f.path tmpl data extensions
        with ⟨lic, err⟩
      cases lic with
      | none =>
        cases err with
        | some e =>
          exact ⟨some e, w.emit (.logError f.path e), [.logError f.path e], rfl, rfl, rfl,
            by simp [Event.touchesFile]⟩
        | none => exact ⟨none, w, [], rfl, rfl, (List.append_nil _).symm, by simp⟩
      | some l =>
        cases err with
        | some e =>
          exact ⟨some e, w.emit (.logError f.path e), [.logError f.path e], rfl, rfl, rfl,
            by simp [Event.touchesFile]⟩
        | none =>
          simp only [hign]
          exact ⟨none, w, [], rfl, rfl, (List.append_nil _).symm, by simp⟩

theorem ignored_path_untouched_witness :
    (∃ w1 evs, addLicense id sampleGlobStrict sampleHeader true (str "vendor.go") 420 () ()
        ([str "other.go"] ++ str "vendor.go" :: [str "["]) [] []
        (sampleWorld (str "vendor.go") (str "package vendor\n")) = some ((false, none), w1) ∧
      w1.files = (sampleWorld (str "vendor.go") (str "package vendor\n")).files ∧
      w1.trace = (sampleWorld (str "vendor.go") (str "package vendor\n")).trace ++ evs ∧
      ∀ e ∈ evs, e = .logIgnored (str "vendor.go")) ∧
    (∀ checkonly, ∃ r w1 evs, fileTask id sampleGlobStrict sampleHeader checkonly true
        ⟨str "vendor.go", 420⟩ () () ([str "other.go"] ++ str "vendor.go" :: [str "["]) [] []
        (sampleWorld (str "vendor.go") (str "package vendor\n")) = some (r, w1) ∧
      w1.files = (sampleWorld (str "vendor.go") (str "package vendor\n")).files ∧
      w1.trace = (sampleWorld (str "vendor.go") (str "package vendor\n")).trace ++ evs ∧
      ∀ e ∈ evs, e.touchesFile = false) :=
  ignored_path_untouched id sampleGlobStrict sampleHeader true ⟨str "vendor.go", 420⟩ () ()
    [str "other.go"] (str "vendor.go") [str "["] (fun path => path == str "vendor.go") [] []
    (sampleWorld (str "vendor.go") (str "package vendor\n"))
    (by decide) (by rw [sampleGlobStrict, if_neg (by decide)]) (by decide)

/-- C12. Already-licensed files are a no-op: for a supported, non-ignored
path whose file is readable with a content on which the detector answers
true, `addLicense` returns `(false, nil)`; it reads the file once, performs
no write, and leaves the content and permission bits of every file as they
were. -/
theorem addLicense_already_licensed {Tmpl Data : Type} (lowerRune : Nat → Nat)
    (compileGlob : Bytes → Option (Bytes → Bool))
    (prefixFn : Tmpl → Data → Bytes → Bytes → Bytes → HeaderResult)
    (verbose : Bool) (path : Bytes) (fmode : Nat) (tmpl : Tmpl) (data : Data)
    (ignoredPaths : List Bytes) (extensions : FileExtensions) (pats : List Bytes)
    (w : World) (h b : Bytes) (m : Nat)
    (hign : pathInIgnoredPaths compileGlob path ignoredPaths = some false)
    (hlic : licenseHeader lowerRune prefixFn path tmpl data extensions = (some h, none))
    (herr : w.readErr path = none) (hfile : w.files path = some (b, m))
    (hhas : hasLicense lowerRune b pats = true) :
    ∃ w1, addLicense lowerRune compileGlob prefixFn verbose path fmode tmpl data ignoredPaths
        extensions pats w = some ((false, none), w1) ∧
      w1.files = w.files ∧ w1.trace = w.trace ++ [.readFile path] := by
  refine ⟨w.emit (.readFile path), ?_, rfl, rfl⟩
  unfold addLicense
  simp only [hign, hlic, Option.isNone_some, Bool.false_and, Bool.false_eq_true, if_false,
    ioutilReadFile_ok path b m w herr hfile, Option.isSome_none, hhas, Bool.or_true, if_true]

theorem addLicense_already_licensed_witness :
    ∃ w1, addLicense id sampleGlob sampleHeader false (str "main.go") 420 () () [] [] []
        (sampleWorld (str "main.go") (str "// COPYRIGHT 2020 Acme\npackage main\n"))
          = some ((false, none), w1) ∧
      w1.files = (sampleWorld (str "main.go") (str "// COPYRIGHT 2020 Acme\npackage main\n")).files ∧
      w1.trace = (sampleWorld (str "main.go") (str "// COPYRIGHT 2020 Acme\npackage main\n")).trace
        ++ [.readFile (str "main.go")] :=
  addLicense_already_licensed id sampleGlob sampleHeader false (str "main.go") 420 () () [] [] []
    (sampleWorld (str "main.go") (str "// COPYRIGHT 2020 Acme\npackage main\n"))
    (str "// Copyright 2024 Acme\n\n") (str "// COPYRIGHT 2020 Acme\npackage main\n") 420
    (by decide) (by decide) (by decide) (by decide) (by decide)

theorem fileHasLicense_world (lowerRune : Nat → Nat) (path : Bytes) (pats : List Bytes)
    (w : World) : (fileHasLicense lowerRune path pats w).2 = w.emit (.readFile path) := by
  unfold fileHasLicense
  simp only
  split <;> exact ioutilReadFile_world path w

theorem fileHasLicense_ok (lowerRune : Nat → Nat) (path : Bytes) (pats : List Bytes)
    (w : World) (b : Bytes) (m : Nat) (herr : w.readErr path = none)
    (hfile : w.files path = some (b, m)) :
    fileHasLicense lowerRune path pats w
      = ((!hasLicense lowerRune b pats, none), w.emit (.readFile path)) := by
  unfold fileHasLicense
  simp only [ioutilReadFile_ok path b m w herr hfile, Option.isSome_none, Bool.false_or]
  cases hasLicense lowerRune b pats <;> rfl

/-- C14. Check-only mode never mutates a file: whenever the per-file task
returns in check-only mode, the content and permission bits of every file are
what they were before, and no event it added is a write; and it does return
when every ignore pattern compiles. -/
theorem checkonly_never_writes {Tmpl Data : Type} (lowerRune : Nat → Nat)
    (compileGlob : Bytes → Option (Bytes → Bool))
    (prefixFn : Tmpl → Data → Bytes → Bytes → Bytes → HeaderResult)
    (verbose : Bool) (f : File) (tmpl : Tmpl) (data : Data)
    (ignoredPaths : List Bytes) (extensions : FileExtensions) (pats : List Bytes)
    (w : World) :
    (∀ r w1, fileTask lowerRune compileGlob prefixFn true verbose f tmpl data ignoredPaths
        extensions pats w = some (r, w1) →
      w1.files = w.files ∧ ∃ evs, w1.trace = w.trace ++ evs ∧ ∀ e ∈ evs, e.isWrite = false) ∧
    ((∀ p ∈ ignoredPaths, (compileGlob p).isSome = true) →
      ∃ r w1, fileTask lowerRune compileGlob prefixFn true verbose f tmpl data ignoredPaths
        extensions pats w = some (r, w1)) := by
  have hshape : ∀ ign : Option Bool, pathInIgnoredPaths compileGlob f.path ignoredPaths = ign →
      (ign = none ∧ fileTask lowerRune compileGlob prefixFn true verbose f tmpl data
        ignoredPaths extensions pats w = none) ∨
      ∃ r w1 evs, fileTask lowerRune compileGlob prefixFn true verbose f tmpl data
        ignoredPaths extensions pats w = some (r, w1) ∧ w1.files = w.files ∧
        w1.trace = w.trace ++ evs ∧ ∀ e ∈ evs, e.isWrite = false := by
    intro ign hign
    unfold fileTask
    simp only [if_true]
    rcases hlic : licenseHeader lowerRune prefixFn f.path tmpl data extensions
      with ⟨lic, err⟩
    cases lic with
    | none =>
      cases err with
      | some e =>
        exact Or.inr ⟨some e, w.emit (.logError f.path e), [.logError f.path e], rfl, rfl, rfl,
          by simp [Event.isWrite]⟩
      | none => exact Or.inr ⟨none, w, [], rfl, rfl, (List.append_nil _).symm, by simp⟩
    | some l =>
      cases err with
      | some e =>
        exact Or.inr ⟨some e, w.emit (.logError f.path e), [.logError f.path e], rfl, rfl, rfl,
          by simp [Event.isWrite]⟩
      | none =>
        simp only [hign]
        cases ign with
        | none => exact Or.inl ⟨rfl, rfl⟩
        | some ig =>
          cases ig with
          | true => exact Or.inr ⟨none, w, [], rfl, rfl, (List.append_nil _).symm, by simp⟩
          | false =>
            simp only
            have hw := fileHasLicense_world lowerRune f.path pats w
            rcases hres : fileHasLicense lowerRune f.path pats w with ⟨⟨miss, e⟩, w2⟩
            rw [hres] at hw
            simp only at hw
            subst hw
            cases miss with
            | true =>
              cases e with
              | some e1 =>
                exact Or.inr ⟨some e1, _, [.readFile f.path, .logError f.path e1], rfl, rfl,
                  by simp [World.emit], by simp [Event.isWrite]⟩
              | none =>
                exact Or.inr ⟨_, _, [.readFile f.path, .printMissing f.path], rfl, rfl,
                  by simp [World.emit], by simp [Event.isWrite]⟩
            | false =>
              cases e with
              | some e1 =>
                exact Or.inr ⟨some e1, _, [.readFile f.path, .logError f.path e1], rfl, rfl,
                  by simp [World.emit], by simp [Event.isWrite]⟩
              | none =>
                exact Or.inr ⟨none, _, [.readFile f.path], rfl, rfl,
                  by simp [World.emit], by simp [Event.isWrite]⟩
  refine ⟨?_, ?_⟩
  · intro r w1 hrun
    rcases hshape _ rfl with ⟨_, hnone⟩ | ⟨r2, w2, evs, hsome, hfiles, htrace, hev⟩
    · rw [hnone] at hrun
      cases hrun
    · rw [hsome] at hrun
      cases hrun
      exact ⟨hfiles, evs, htrace, hev⟩
  · intro hglob
    obtain ⟨ig, hig⟩ := pathInIgnoredPaths_isSome compileGlob f.path ignoredPaths hglob
    rcases hshape _ hig with ⟨hnone, _⟩ | ⟨r2, w2, _, hsome, _⟩
    · cases hnone
    · exact ⟨r2, w2, hsome⟩

theorem checkonly_never_writes_witness :
    ∃ r w1, fileTask id sampleGlob sampleHeader true false ⟨str "main.go", 420⟩ () ()
        [str "vendor.go"] [] [] (sampleWorld (str "main.go") (str "package main\n"))
        = some (r, w1) ∧
      w1.files = (sampleWorld (str "main.go") (str "package main\n")).files ∧
      ∃ evs, w1.trace = (sampleWorld (str "main.go") (str "package main\n")).trace ++ evs ∧
        ∀ e ∈ evs, e.isWrite = false := by
  obtain ⟨r, w1, hrun⟩ :=
    (checkonly_never_writes id sampleGlob sampleHeader false ⟨str "main.go", 420⟩ () ()
      [str "vendor.go"] [] [] (sampleWorld (str "main.go") (str "package main\n"))).2
      (by decide)
  obtain ⟨hfiles, hevs⟩ :=
    (checkonly_never_writes id sampleGlob sampleHeader false ⟨str "main.go", 420⟩ () ()
      [str "vendor.go"] [] [] (sampleWorld (str "main.go") (str "package main\n"))).1 r w1 hrun
  exact ⟨r, w1, hrun, hfiles, hevs⟩

/-- C15. In check-only mode, for a path that classifies to a comment style,
that the ignore patterns do not match and whose file is readable with content
`b`, the per-file task reads the file and then: when the detector answers
false on `b` it prints the path and returns the error "missing license
header"; when the detector answers true it returns `nil` and prints
nothing. -/
theorem checkonly_reports_missing {Tmpl Data : Type} (lowerRune : Nat → Nat)
    (compileGlob : Bytes → Option (Bytes → Bool))
    (prefixFn : Tmpl → Data → Bytes → Bytes → Bytes → HeaderResult)
    (verbose : Bool) (f : File) (tmpl : Tmpl) (data : Data)
    (ignoredPaths : List Bytes) (extensions : FileExtensions) (pats : List Bytes)
    (w : World) (h b : Bytes) (m : Nat)
    (hlic : licenseHeader lowerRune prefixFn f.path tmpl data extensions = (some h, none))
    (hign : pathInIgnoredPaths compileGlob f.path ignoredPaths = some false)
    (herr : w.readErr f.path = none) (hfile : w.files f.path = some (b, m)) :
    ∃ r w1 evs, fileTask lowerRune compileGlob prefixFn true verbose f tmpl data ignoredPaths
        extensions pats w = some (r, w1) ∧
      w1.trace = w.trace ++ .readFile f.path :: evs ∧
      (hasLicense lowerRune b pats = false →
        r = some ⟨"missing license header"⟩ ∧ evs = [.printMissing f.path]) ∧
      (hasLicense lowerRune b pats = true → r = none ∧ evs = []) ∧
      ((r = some ⟨"missing license header"⟩ ∧ .printMissing f.path ∈ evs) ↔
        hasLicense lowerRune b pats = false) := by
  unfold fileTask
  simp only [if_true, hlic, hign, fileHasLicense_ok lowerRune f.path pats w b m herr hfile]
  cases hhas : hasLicense lowerRune b pats with
  | false =>
    exact ⟨_, _, [.printMissing f.path], rfl, by simp [World.emit], fun _ => ⟨rfl, rfl⟩,
      fun h => (by cases h), by simp⟩
  | true =>
    exact ⟨none, _, [], rfl, by simp [World.emit], fun h => (by cases h),
      fun _ => ⟨rfl, rfl⟩, by simp⟩

theorem checkonly_reports_missing_witness :
    (∃ w1, fileTask id sampleGlob sampleHeader true false ⟨str "main.go", 420⟩ () () [] [] []
        (sampleWorld (str "main.go") (str "package main\n"))
        = some (some ⟨"missing license header"⟩, w1) ∧
      w1.trace = [.readFile (str "main.go"), .printMissing (str "main.go")]) ∧
    (∃ w1, fileTask id sampleGlob sampleHeader true false ⟨str "lib.go", 420⟩ () () [] [] []
        (sampleWorld (str "lib.go") (str "// Copyright 2020 Acme\npackage lib\n"))
        = some (none, w1) ∧
      w1.trace = [.readFile (str "lib.go")]) := by
  constructor
  · obtain ⟨r, w1, evs, hrun, htrace, hmiss, _, _⟩ :=
      checkonly_reports_missing id sampleGlob sampleHeader false ⟨str "main.go", 420⟩ () ()
        [] [] [] (sampleWorld (str "main.go") (str "package main\n"))
        (str "// Copyright 2024 Acme\n\n") (str "package main\n") 420
        (by decide) (by decide) (by decide) (by decide)
    obtain ⟨rfl, rfl⟩ := hmiss (by decide)
    exact ⟨w1, hrun, htrace⟩
  · obtain ⟨r, w1, evs, hrun, htrace, _, hhas, _⟩ :=
      checkonly_reports_missing id sampleGlob sampleHeader false ⟨str "lib.go", 420⟩ () ()
        [] [] [] (sampleWorld (str "lib.go") (str "// Copyright 2020 Acme\npackage lib\n"))
        (str "// Copyright 2024 Acme\n\n") (str "// Copyright 2020 Acme\npackage lib\n") 420
        (by decide) (by decide) (by decide) (by decide)
    obtain ⟨rfl, rfl⟩ := hhas (by decide)
    exact ⟨w1, hrun, htrace⟩

/-- C16. `fileHasLicense` returns the opposite of what its comment announces:
on a readable file with content `b` it returns `(true, nil)` exactly when the
detector answers false on `b`.  On "package main" it returns `(true, nil)`, on
a file that starts with "// Copyright 2024 Acme" it returns `(false, nil)`. -/
theorem fileHasLicense_inverted (lowerRune : Nat → Nat) (path b : Bytes) (pats : List Bytes) :
    (fileHasLicense lowerRune path pats (sampleWorld path b)).1
      = (!hasLicense lowerRune b pats, none) ∧
    hasLicense lowerRune (str "package main\n") [] = false ∧
    (fileHasLicense lowerRune (str "main.go") []
      (sampleWorld (str "main.go") (str "package main\n"))).1 = (true, none) ∧
    hasLicense lowerRune (str "// Copyright 2024 Acme\n\npackage main\n") [] = true ∧
    (fileHasLicense lowerRune (str "main.go") []
      (sampleWorld (str "main.go") (str "// Copyright 2024 Acme\n\npackage main\n"))).1
      = (false, none) := by
  have hgen : ∀ (p c : Bytes) (ps : List Bytes),
      (fileHasLicense lowerRune p ps (sampleWorld p c)).1
        = (!hasLicense lowerRune c ps, none) := by
    intro p c ps
    rw [fileHasLicense_ok lowerRune p ps (sampleWorld p c) c 420 rfl (by simp [sampleWorld])]
  have h1 : hasLicense lowerRune (str "package main\n") [] = false := by
    rw [hasLicense_window, toLower_of_ascii lowerRune _ (by decide)]
    decide
  have h2 : hasLicense lowerRune (str "// Copyright 2024 Acme\n\npackage main\n") [] = true := by
    rw [hasLicense_window, toLower_of_ascii lowerRune _ (by decide)]
    decide
  refine ⟨hgen path b pats, h1, ?_, h2, ?_⟩
  · rw [hgen, h1]
    rfl
  · rw [hgen, h2]
    rfl

/-! ## Claims on the pipeline -/

theorem runActions_sendAndStart {Tmpl Data : Type} (lowerRune : Nat → Nat)
    (compileGlob : Bytes → Option (Bytes → Bool))
    (prefixFn : Tmpl → Data → Bytes → Bytes → Bytes → HeaderResult)
    (checkonly verbose : Bool) (tmpl : Tmpl) (data : Data)
    (ignoredPaths : List Bytes) (fileExtensions : FileExtensions) (pats : List Bytes)
    (w : World) (files : List File) :
    ∀ started : List File,
      runActions lowerRune compileGlob prefixFn checkonly verbose tmpl data ignoredPaths
        fileExtensions pats (sendAndStart files.length)
        { initRun files w with running := started }
      = some { initRun [] w with running := started ++ files } := by
  induction files with
  | nil =>
    intro started
    simp [sendAndStart, runActions, initRun]
  | cons f fs ih =>
    intro started
    have h := ih (started ++ [f])
    simp only [List.append_assoc, List.singleton_append] at h
    simp only [List.length_cons, sendAndStart, runActions, step, initRun, Option.isSome_none,
      Bool.false_eq_true, if_false, List.length_nil, Nat.zero_lt_succ, if_true,
      List.nil_append]
    simpa [initRun] using h

theorem Run.inv_init (files : List File) (w : World) :
    (initRun files w).Inv files.length := by
  simp [Run.Inv, initRun]

theorem step_inv {Tmpl Data : Type} (lowerRune : Nat → Nat)
    (compileGlob : Bytes → Option (Bytes → Bool))
    (prefixFn : Tmpl → Data → Bytes → Bytes → Bytes → HeaderResult)
    (checkonly verbose : Bool) (tmpl : Tmpl) (data : Data)
    (ignoredPaths : List Bytes) (fileExtensions : FileExtensions) (pats : List Bytes)
    (n : Nat) (a : Action) (s s1 : Run) (hinv : s.Inv n)
    (hstep : step lowerRune compileGlob prefixFn checkonly verbose tmpl data ignoredPaths
      fileExtensions pats a s = some s1) : s1.Inv n := by
  obtain ⟨hcount, herr, hclosed, hwaited, hdone, hexit1, hexit0⟩ := hinv
  unfold step at hstep
  split at hstep
  · cases hstep
  rename_i hlive
  have hnone : s.exit = none := by
    cases hx : s.exit with
    | none => rfl
    | some v => simp [hx] at hlive
  cases a with
  | send =>
    simp only at hstep
    split at hstep
    · cases hstep
    · rename_i f rest hsend
      split at hstep
      · cases hstep
        have hopen : s.chClosed = false := by
          cases hc : s.chClosed with
          | false => rfl
          | true => simp [hclosed hc] at hsend
        refine ⟨?_, herr, ?_, ?_, hdone, ?_, ?_⟩
        · simp only [List.length_append, List.length_singleton]
          rw [hsend] at hcount
          simp only [List.length_cons] at hcount
          omega
        · intro hc
          simp [hopen] at hc
        · intro hw
          have := (hwaited hw).2.1
          simp [hopen] at this
        · intro hx
          simp [hnone] at hx
        · intro hx
          simp [hnone] at hx
      · cases hstep
  | closeCh =>
    simp only at hstep
    split at hstep
    · rename_i hcond
      cases hstep
      refine ⟨hcount, herr, fun _ => hcond.1, ?_, hdone, ?_, ?_⟩
      · intro hw
        exact ⟨(hwaited hw).1, rfl, (hwaited hw).2.2⟩
      · intro hx
        simp [hnone] at hx
      · intro hx
        simp [hnone] at hx
    · cases hstep
  | start =>
    simp only at hstep
    split at hstep
    · cases hstep
    · rename_i f rest hch
      cases hstep
      refine ⟨?_, herr, hclosed, ?_, hdone, ?_, ?_⟩
      · simp only [List.length_append, List.length_singleton]
        rw [hch] at hcount
        simp only [List.length_cons] at hcount
        omega
      · intro hw
        have := (hwaited hw).1
        simp [hch] at this
      · intro hx
        simp [hnone] at hx
      · intro hx
        simp [hnone] at hx
  | finish i =>
    simp only at hstep
    split at hstep
    · cases hstep
    · rename_i f hget
      have hlt : i < s.running.length := by
        rw [List.get?_eq_getElem?] at hget
        exact (List.getElem?_eq_some_iff.mp hget).1
      have hrun : s.running ≠ [] := by
        intro h
        rw [h] at hlt
        exact absurd hlt (Nat.not_lt_zero _)
      have hnw : s.waited = false := by
        cases hc : s.waited with
        | false => rfl
        | true => exact absurd (hwaited hc).2.2 hrun
      split at hstep
      · cases hstep
        refine ⟨hcount, herr, hclosed, hwaited, hdone, ?_, ?_⟩
        · intro hx
          simp at hx
        · intro hx
          simp at hx
      · rename_i e w1 htask
        cases hstep
        refine ⟨?_, ?_, hclosed, ?_, hdone, ?_, ?_⟩
        · simp only [List.length_eraseIdx, hlt, if_true, List.length_append,
            List.length_singleton]
          omega
        · simp only [List.mem_append, List.mem_singleton]
          constructor
          · intro h
            by_cases hs : s.err.isSome = true
            · obtain ⟨e1, he1, hs1⟩ := herr.mp hs
              exact ⟨e1, Or.inl he1, hs1⟩
            · simp only [hs, Bool.false_eq_true, if_false] at h
              exact ⟨e, Or.inr rfl, h⟩
          · rintro ⟨e1, he1 | he1, hs1⟩
            · have hs := herr.mpr ⟨e1, he1, hs1⟩
              simp only [hs, if_true]
            · subst he1
              by_cases hs : s.err.isSome = true
              · simp only [hs, if_true]
              · simp only [hs, Bool.false_eq_true, if_false, hs1]
        · intro hw
          simp [hnw] at hw
        · intro hx
          simp [hnone] at hx
        · intro hx
          simp [hnone] at hx
  | wait =>
    simp only at hstep
    split at hstep
    · rename_i hcond
      cases hstep
      refine ⟨hcount, herr, hclosed, fun _ => ⟨hcond.1, hcond.2.1, hcond.2.2.1⟩, ?_, ?_, ?_⟩
      · intro _
        rfl
      · intro hx
        simp [hnone] at hx
      · intro hx
        simp [hnone] at hx
    · cases hstep
  | closeDone =>
    simp only at hstep
    split at hstep
    · rename_i hcond
      cases hstep
      refine ⟨hcount, herr, hclosed, hwaited, fun _ => hcond.1, ?_, ?_⟩
      · intro hx
        simp [hnone] at hx
      · intro hx
        simp [hnone] at hx
    · cases hstep
  | exitFailure =>
    simp only at hstep
    split at hstep
    · rename_i hcond
      cases hstep
      refine ⟨hcount, herr, hclosed, hwaited, hdone, fun _ => ⟨hcond.2, hcond.1⟩, ?_⟩
      intro hx
      simp at hx
    · cases hstep
  | mainReturn =>
    simp only at hstep
    split at hstep
    · rename_i hcond
      cases hstep
      refine ⟨hcount, herr, hclosed, hwaited, hdone, ?_, fun _ => hcond.2⟩
      intro hx
      simp at hx
    · cases hstep

theorem runActions_inv {Tmpl Data : Type} (lowerRune : Nat → Nat)
    (compileGlob : Bytes → Option (Bytes → Bool))
    (prefixFn : Tmpl → Data → Bytes → Bytes → Bytes → HeaderResult)
    (checkonly verbose : Bool) (tmpl : Tmpl) (data : Data)
    (ignoredPaths : List Bytes) (fileExtensions : FileExtensions) (pats : List Bytes)
    (n : Nat) (acts : List Action) :
    ∀ s s1 : Run, s.Inv n →
      runActions lowerRune compileGlob prefixFn checkonly verbose tmpl data ignoredPaths
        fileExtensions pats acts s = some s1 → s1.Inv n := by
  induction acts with
  | nil =>
    intro s s1 hinv hrun
    simp only [runActions, Option.some.injEq] at hrun
    exact hrun ▸ hinv
  | cons a rest ih =>
    intro s s1 hinv hrun
    rw [runActions] at hrun
    split at hrun
    · cases hrun
    · rename_i s2 hstep
      exact ih s2 s1 (step_inv lowerRune compileGlob prefixFn checkonly verbose tmpl data
        ignoredPaths fileExtensions pats n a s s2 hinv hstep) hrun

/-- Collect-all-errors: whenever a run over `files` ends with status 0 or 1,
the task of every file has returned, and the group holds an error exactly
when one of them returned an error; status 1 is reached only with an error. -/
theorem run_collects_all_errors {Tmpl Data : Type} (lowerRune : Nat → Nat)
    (compileGlob : Bytes → Option (Bytes → Bool))
    (prefixFn : Tmpl → Data → Bytes → Bytes → Bytes → HeaderResult)
    (checkonly verbose : Bool) (tmpl : Tmpl) (data : Data)
    (ignoredPaths : List Bytes) (fileExtensions : FileExtensions) (pats : List Bytes)
    (files : List File) (w : World) (acts : List Action) (s : Run)
    (hrun : runActions lowerRune compileGlob prefixFn checkonly verbose tmpl data
      ignoredPaths fileExtensions pats acts (initRun files w) = some s)
    (hexit : s.exit = some 0 ∨ s.exit = some 1) :
    s.returned.length = files.length ∧ s.running = [] ∧
    (s.err.isSome = true ↔ ∃ e ∈ s.returned, e.isSome = true) ∧
    (s.exit = some 1 → s.err.isSome = true) := by
  obtain ⟨hcount, herr, hclosed, hwaited, hdone, hexit1, hexit0⟩ :=
    runActions_inv lowerRune compileGlob prefixFn checkonly verbose tmpl data ignoredPaths
      fileExtensions pats files.length acts _ s (Run.inv_init files w) hrun
  have hd : s.doneClosed = true := by
    rcases hexit with h | h
    · exact hexit0 h
    · exact (hexit1 h).2
  obtain ⟨hch, hcl, hrunning⟩ := hwaited (hdone hd)
  have hsend := hclosed hcl
  rw [hsend, hch, hrunning] at hcount
  simp only [List.length_nil, Nat.zero_add] at hcount
  exact ⟨hcount, hrunning, herr, fun h => (hexit1 h).1⟩

/-- C18. The number of tasks that run at the same time is not bounded: for
every list of files there is a schedule of `main` after which the tasks of
all of them have been started and none has returned.  With 1001 files, 1001
tasks run at once. -/
theorem running_tasks_unbounded {Tmpl Data : Type} (lowerRune : Nat → Nat)
    (compileGlob : Bytes → Option (Bytes → Bool))
    (prefixFn : Tmpl → Data → Bytes → Bytes → Bytes → HeaderResult)
    (checkonly verbose : Bool) (tmpl : Tmpl) (data : Data)
    (ignoredPaths : List Bytes) (fileExtensions : FileExtensions) (pats : List Bytes)
    (w : World) :
    (∀ files : List File,
      (runActions lowerRune compileGlob prefixFn checkonly verbose tmpl data ignoredPaths
        fileExtensions pats (sendAndStart files.length) (initRun files w)).map
          (fun s => s.running) = some files) ∧
    (runActions lowerRune compileGlob prefixFn checkonly verbose tmpl data ignoredPaths
        fileExtensions pats (sendAndStart 1001) (initRun (numberedFiles 1001) w)).map
          (fun s => s.running.length) = some 1001 := by
  have hgen : ∀ files : List File,
      runActions lowerRune compileGlob prefixFn checkonly verbose tmpl data ignoredPaths
        fileExtensions pats (sendAndStart files.length) (initRun files w)
      = some { initRun [] w with running := files } := by
    intro files
    have h := runActions_sendAndStart lowerRune compileGlob prefixFn checkonly verbose tmpl
      data ignoredPaths fileExtensions pats w files []
    simpa [initRun] using h
  refine ⟨fun files => ?_, ?_⟩
  · rw [hgen]
    rfl
  · have hlen : (numberedFiles 1001).length = 1001 := by simp [numberedFiles]
    have h := hgen (numberedFiles 1001)
    rw [hlen] at h
    rw [h]
    simp [hlen]

/-- C17. The exit status does not follow the aggregate error: in check-only
mode on the single file `main.go` without a header, the task returns the
error "missing license header" and the group keeps it; the pipeline goroutine
then closes `done` before it calls `os.Exit(1)`, so the run ends with status
1 when that call comes first and with status 0 when `main`, released by
`close(done)`, returns first. -/
theorem exit_status_race :
    (runActions id sampleGlob sampleHeader true false () () [] [] []
        [.send, .closeCh, .start, .finish 0, .wait, .closeDone, .exitFailure]
        (initRun [⟨str "main.go", 420⟩] (sampleWorld (str "main.go") (str "package main\n")))).map
      (fun s => (s.err, s.exit, s.running)) = some (some ⟨"missing license header"⟩, some 1, []) ∧
    (runActions id sampleGlob sampleHeader true false () () [] [] []
        [.send, .closeCh, .start, .finish 0, .wait, .closeDone, .mainReturn]
        (initRun [⟨str "main.go", 420⟩] (sampleWorld (str "main.go") (str "package main\n")))).map
      (fun s => (s.err, s.exit, s.running)) = some (some ⟨"missing license header"⟩, some 0, []) := by
  decide

/-! ## Claims on the preamble line and on the second pass -/

theorem ascii_of_map_asciiLower (w t : Bytes) (hw : w.map asciiLower = t)
    (ht : ∀ x ∈ t, x < 128) : ∀ c ∈ w, c < 128 := by
  intro c hc
  have hlt : asciiLower c < 128 := ht _ (hw ▸ List.mem_map_of_mem _ hc)
  unfold asciiLower at hlt
  split at hlt <;> omega

/-- ASCII text at the start of `s` is lower-cased in place by `toLower`. -/
theorem toLower_ascii_isPrefix (lowerRune : Nat → Nat) (w s : Bytes)
    (hw : ∀ c ∈ w, c < 128) (hs : w <+: s) :
    w.map asciiLower <+: toLower lowerRune s := by
  unfold toLower
  split
  · exact hs.map asciiLower
  · exact mapRunesFrom_ascii_isPrefix lowerRune w hw s hs

theorem firstLine_isPrefix (b : Bytes) : firstLine b <+: b := by
  induction b with
  | nil => exact List.prefix_refl _
  | cons c rest ih =>
    unfold firstLine
    split
    · exact ⟨rest, rfl⟩
    · exact (List.prefix_cons_inj c).mpr ih

theorem firstLine_of_no_newline (b : Bytes) (h : 10 ∉ b) : firstLine b = b := by
  induction b with
  | nil => rfl
  | cons c rest ih =>
    have hc : c ≠ 10 := fun hc => h (hc ▸ List.mem_cons_self _ _)
    rw [firstLine, if_neg hc, ih (fun hr => h (List.mem_cons_of_mem _ hr))]

theorem firstLine_of_newline (before after : Bytes) (h : 10 ∉ before) :
    firstLine (before ++ 10 :: after) = before ++ [10] := by
  induction before with
  | nil => simp [firstLine]
  | cons c rest ih =>
    have hc : c ≠ 10 := fun hc => h (hc ▸ List.mem_cons_self _ _)
    rw [List.cons_append, firstLine, if_neg hc, ih (fun hr => h (List.mem_cons_of_mem _ hr)),
      List.cons_append]

/-- A newline in the first line is its last byte. -/
theorem firstLine_newline_last (b before after : Bytes)
    (h : firstLine b = before ++ 10 :: after) : after = [] := by
  induction b generalizing before with
  | nil =>
    rw [firstLine] at h
    exact absurd h.symm (List.append_ne_nil_of_right_ne_nil _ (List.cons_ne_nil _ _))
  | cons c rest ih =>
    rw [firstLine] at h
    split at h
    · rename_i hc
      cases before with
      | nil =>
        simp only [List.nil_append, List.cons.injEq] at h
        exact h.2.symm
      | cons d before1 =>
        simp only [List.cons_append, List.cons.injEq] at h
        exact absurd h.2.symm (List.append_ne_nil_of_right_ne_nil _ (List.cons_ne_nil _ _))
    · rename_i hc
      cases before with
      | nil =>
        simp only [List.nil_append, List.cons.injEq] at h
        exact absurd h.1 hc
      | cons d before1 =>
        simp only [List.cons_append, List.cons.injEq] at h
        exact ih before1 h.2

theorem hashBangLoop_eq (first line : Bytes) (hs : List Bytes) :
    hashBangLoop first line hs = if ∃ h ∈ hs, h <+: first then line else [] := by
  induction hs with
  | nil => simp [hashBangLoop]
  | cons h hs ih =>
    rw [hashBangLoop, ih]
    by_cases hp : hasPrefix first h = true
    · rw [if_pos hp, if_pos ⟨h, List.mem_cons_self _ _, (hasPrefix_iff _ _).mp hp⟩]
    · rw [if_neg hp]
      have hnp : ¬ h <+: first := fun hx => hp ((hasPrefix_iff _ _).mpr hx)
      by_cases hex : ∃ h1 ∈ hs, h1 <+: first
      · obtain ⟨h1, hm, hx⟩ := hex
        rw [if_pos ⟨h1, hm, hx⟩, if_pos ⟨h1, List.mem_cons_of_mem _ hm, hx⟩]
      · rw [if_neg hex, if_neg]
        rintro ⟨h1, hm, hx⟩
        rcases List.mem_cons.mp hm with rfl | hm
        · exact hnp hx
        · exact hex ⟨h1, hm, hx⟩

theorem hashBang_eq (lowerRune : Nat → Nat) (b : Bytes) :
    hashBang lowerRune b
      = if ∃ h ∈ head, h <+: toLower lowerRune (firstLine b) then firstLine b else [] := by
  unfold hashBang
  exact hashBangLoop_eq _ _ _

/-- C19. `hashBang b` is the first physical line of `b` (all of `b` when it
holds no newline, otherwise its bytes up to and including the first newline)
when that line, lower-cased, starts with one of "#!", "<?xml", "<!doctype",
"# encoding:", "# frozen_string_literal:", "<?php", and is empty otherwise.
So the result is a prefix of `b`, a newline in it is its last byte, a prefix
written in any letter case is recognised ("<!DOCTYPE html>" is a preamble),
and the result for empty content is empty. -/
theorem hashBang_spec (lowerRune : Nat → Nat) (b : Bytes) :
    head = [str "#!", str "<?xml", str "<!doctype", str "# encoding:",
      str "# frozen_string_literal:", str "<?php"] ∧
    (10 ∉ b → firstLine b = b) ∧
    (∀ before after, b = before ++ 10 :: after → 10 ∉ before →
      firstLine b = before ++ [10]) ∧
    ((∃ h ∈ head, h <+: toLower lowerRune (firstLine b)) →
      hashBang lowerRune b = firstLine b) ∧
    ((¬ ∃ h ∈ head, h <+: toLower lowerRune (firstLine b)) → hashBang lowerRune b = []) ∧
    hashBang lowerRune b <+: b ∧
    (∀ before after, hashBang lowerRune b = before ++ 10 :: after → after = []) ∧
    (∀ w h, h ∈ head → w.map asciiLower = h → w <+: firstLine b →
      hashBang lowerRune b = firstLine b) ∧
    hashBang lowerRune (str "<!DOCTYPE html>") = str "<!DOCTYPE html>" ∧
    hashBang lowerRune [] = [] := by
  have hfound : (∃ h ∈ head, h <+: toLower lowerRune (firstLine b)) →
      hashBang lowerRune b = firstLine b := fun hex => by rw [hashBang_eq, if_pos hex]
  refine ⟨rfl, firstLine_of_no_newline b, ?_, hfound, ?_, ?_, ?_, ?_, ?_, ?_⟩
  · rintro before after rfl hno
    exact firstLine_of_newline before after hno
  · intro hno
    rw [hashBang_eq, if_neg hno]
  · rw [hashBang_eq]
    split
    · exact firstLine_isPrefix b
    · exact List.nil_prefix
  · intro before after hb
    rw [hashBang_eq] at hb
    split at hb
    · exact firstLine_newline_last b before after hb
    · exact absurd hb.symm (List.append_ne_nil_of_right_ne_nil _ (List.cons_ne_nil _ _))
  · intro w h hh hw hpre
    have hascii : ∀ c ∈ w, c < 128 :=
      ascii_of_map_asciiLower w h hw
        ((by decide : ∀ h1 ∈ head, ∀ x ∈ h1, x < 128) h hh)
    exact hfound ⟨h, hh, hw ▸ toLower_ascii_isPrefix lowerRune w _ hascii hpre⟩
  · have hline : firstLine (str "<!DOCTYPE html>") = str "<!DOCTYPE html>" := by decide
    rw [hashBang_eq, hline, if_pos]
    refine ⟨str "<!doctype", by decide, ?_⟩
    rw [toLower_of_ascii lowerRune _ (by decide)]
    decide
  · rw [hashBang_eq, if_neg]
    rintro ⟨h, hh, hpre⟩
    have hnil : toLower lowerRune (firstLine []) = [] := by
      rw [toLower_of_ascii lowerRune _ (by simp [firstLine])]
      rfl
    rw [hnil] at hpre
    have := List.eq_nil_of_prefix_nil hpre
    subst this
    revert hh
    decide

theorem hashBang_spec_witness :
    firstLine (str "#!/bin/SH\necho hi\n") = str "#!/bin/SH\n" ∧
    hashBang id (str "#!/bin/SH\necho hi\n") = firstLine (str "#!/bin/SH\necho hi\n") ∧
    hashBang id (str "<?XML version=\"1.0\"?>") = firstLine (str "<?XML version=\"1.0\"?>") ∧
    firstLine (str "<?XML version=\"1.0\"?>") = str "<?XML version=\"1.0\"?>" ∧
    hashBang id (str "package main\n") = [] :=
  ⟨(hashBang_spec id (str "#!/bin/SH\necho hi\n")).2.2.1 (str "#!/bin/SH") (str "echo hi\n")
      (by decide) (by decide),
    (hashBang_spec id (str "#!/bin/SH\necho hi\n")).2.2.2.1 ⟨str "#!", by decide, by decide⟩,
    (hashBang_spec id (str "<?XML version=\"1.0\"?>")).2.2.2.2.2.2.2.1 (str "<?XML")
      (str "<?xml") (by decide) (by decide) (by decide),
    (hashBang_spec id (str "<?XML version=\"1.0\"?>")).2.1 (by decide),
    (hashBang_spec id (str "package main\n")).2.2.2.2.1 (by decide)⟩

/-- The first run on a supported, non-ignored, readable file without a
detected header: `addLicense` returns `true` and the world after the write. -/
theorem addLicense_run_write {Tmpl Data : Type} (lowerRune : Nat → Nat)
    (compileGlob : Bytes → Option (Bytes → Bool))
    (prefixFn : Tmpl → Data → Bytes → Bytes → Bytes → HeaderResult)
    (verbose : Bool) (path : Bytes) (fmode : Nat) (tmpl : Tmpl) (data : Data)
    (ignoredPaths : List Bytes) (extensions : FileExtensions) (pats : List Bytes)
    (w : World) (h b : Bytes) (m : Nat)
    (hign : pathInIgnoredPaths compileGlob path ignoredPaths = some false)
    (hlic : licenseHeader lowerRune prefixFn path tmpl data extensions = (some h, none))
    (herr : w.readErr path = none) (hfile : w.files path = some (b, m))
    (hno : hasLicense lowerRune b pats = false) :
    addLicense lowerRune compileGlob prefixFn verbose path fmode tmpl data
      ignoredPaths extensions pats w
      = some ((true, w.writeErr path),
          (ioutilWriteFile path (insertHeader lowerRune b h) fmode
            (w.emit (.readFile path))).2) := by
  unfold addLicense
  simp only [hign, hlic, Option.isNone_some, Bool.false_and, Bool.false_eq_true, if_false,
    ioutilReadFile_ok path b m w herr hfile, Option.isSome_none, hno, Bool.or_false,
    ioutilWriteFile_err]
  rfl

/-- A word that ends within the first 1000 bytes occurs in the window the
detector looks at. -/
theorem isInfix_take_window (front word back : Bytes)
    (hlen : front.length + word.length ≤ 1000) :
    word <:+: (front ++ word ++ back).take 1000 := by
  rw [List.take_append_eq_append_take, List.take_of_length_le (by simp; omega)]
  exact ⟨front, _, rfl⟩

/-- C20. With the default detection patterns, let `b` be a content without
a detected header and `h` a header in which "copyright", in any letter case,
ends within the first `1000 - len(pre)` bytes, `pre` being the preamble line
completed by a newline (empty when there is none).  Then the detector answers
true on the bytes `out` that `addLicense` writes; when the write succeeds, a
second `addLicense` returns `(false, nil)` and leaves the file with the bytes
`out`. -/
theorem addLicense_second_pass {Tmpl Data : Type} (lowerRune : Nat → Nat)
    (compileGlob : Bytes → Option (Bytes → Bool))
    (prefixFn : Tmpl → Data → Bytes → Bytes → Bytes → HeaderResult)
    (verbose : Bool) (path : Bytes) (fmode : Nat) (tmpl : Tmpl) (data : Data)
    (ignoredPaths : List Bytes) (extensions : FileExtensions)
    (w : World) (h b : Bytes) (m : Nat) (pre out front word back : Bytes)
    (hign : pathInIgnoredPaths compileGlob path ignoredPaths = some false)
    (hlic : licenseHeader lowerRune prefixFn path tmpl data extensions = (some h, none))
    (herr : w.readErr path = none) (hfile : w.files path = some (b, m))
    (hno : hasLicense lowerRune b [] = false)
    (hpre : pre = if hashBang lowerRune b = [] then []
      else if [10] <:+ hashBang lowerRune b then hashBang lowerRune b
      else hashBang lowerRune b ++ [10])
    (hout : out = pre ++ h ++ b.drop (hashBang lowerRune b).length)
    (hh : h = front ++ word ++ back)
    (hword : word.map asciiLower = str "copyright")
    (hpos : front.length + word.length ≤ 1000 - pre.length) :
    hasLicense lowerRune out [] = true ∧
    (w.writeErr path = none →
      ∃ w1 w2, addLicenseTwice lowerRune compileGlob prefixFn verbose path fmode tmpl data
          ignoredPaths extensions [] w = some (((true, none), w1), ((false, none), w2)) ∧
        w1.files path = some (out, m) ∧ w2.files = w1.files) := by
  have hwlen : word.length = 9 := by
    have := congrArg List.length hword
    rw [List.length_map] at this
    rw [this]
    decide
  have hins : insertHeader lowerRune b h = out := by
    rw [insertHeader_eq, hout, hpre]
    by_cases hl : hashBang lowerRune b = []
    · simp [hl]
    · simp only [hl, if_false]
  have hdet : hasLicense lowerRune out [] = true := by
    have hascii : ∀ c ∈ word, c < 128 :=
      ascii_of_map_asciiLower word _ hword (by decide)
    have hin : word <:+: out.take 1000 := by
      have hshape : out = (pre ++ front) ++ word
          ++ (back ++ b.drop (hashBang lowerRune b).length) := by
        rw [hout, hh]
        simp only [List.append_assoc]
      rw [hshape]
      exact isInfix_take_window _ _ _ (by rw [List.length_append]; omega)
    have hlow := toLower_ascii_isInfix lowerRune word (out.take 1000) hascii hin
    rw [hword] at hlow
    rw [hasLicense_window, if_neg (by simp), Bool.or_eq_true, contains_iff]
    exact Or.inl hlow
  refine ⟨hdet, fun hw => ?_⟩
  have hrun := addLicense_run_write lowerRune compileGlob prefixFn verbose path fmode tmpl
    data ignoredPaths extensions [] w h b m hign hlic herr hfile hno
  rw [hw, hins] at hrun
  have hfile1 := ioutilWriteFile_files_ok path out b fmode m (w.emit (.readFile path)) hw hfile
  obtain ⟨r2, w2, h2, hfiles, hres⟩ := addLicense_second_run lowerRune compileGlob prefixFn
    verbose path fmode tmpl data ignoredPaths extensions [] w (true, none) _ hrun
    (fun _ c m1 hc => by
      rw [hfile1] at hc
      cases hc
      exact hdet)
  obtain ⟨hr2, _⟩ := hres rfl
  subst hr2
  refine ⟨_, w2, ?_, hfile1, hfiles⟩
  unfold addLicenseTwice
  simp only [hrun, h2]

theorem addLicense_second_pass_witness :
    hasLicense id (str "#!/bin/sh\n# Copyright 2024 Acme\n\necho hi\n") [] = true ∧
    ∃ w1 w2, addLicenseTwice id sampleGlob sampleHeader false (str "run.sh") 493 () () [] [] []
        (sampleWorld (str "run.sh") (str "#!/bin/sh\necho hi\n"))
        = some (((true, none), w1), ((false, none), w2)) ∧
      w1.files (str "run.sh") = some (str "#!/bin/sh\n# Copyright 2024 Acme\n\necho hi\n", 420) ∧
      w2.files = w1.files :=
  ⟨(addLicense_second_pass id sampleGlob sampleHeader false (str "run.sh") 493 () () [] []
      (sampleWorld (str "run.sh") (str "#!/bin/sh\necho hi\n"))
      (str "# Copyright 2024 Acme\n\n") (str "#!/bin/sh\necho hi\n") 420
      (str "#!/bin/sh\n") (str "#!/bin/sh\n# Copyright 2024 Acme\n\necho hi\n")
      (str "# ") (str "Copyright") (str " 2024 Acme\n\n")
      (by decide) (by decide) (by decide) (by decide) (by decide) (by decide) (by decide)
      (by decide) (by decide) (by decide)).1,
    (addLicense_second_pass id sampleGlob sampleHeader false (str "run.sh") 493 () () [] []
      (sampleWorld (str "run.sh") (str "#!/bin/sh\necho hi\n"))
      (str "# Copyright 2024 Acme\n\n") (str "#!/bin/sh\necho hi\n") 420
      (str "#!/bin/sh\n") (str "#!/bin/sh\n# Copyright 2024 Acme\n\necho hi\n")
      (str "# ") (str "Copyright") (str " 2024 Acme\n\n")
      (by decide) (by decide) (by decide) (by decide) (by decide) (by decide) (by decide)
      (by decide) (by decide) (by decide)).2 (by decide)⟩

/-! ## Idempotence from a condition on the header and the patterns -/

/-- A run of `addLicense` that returns `(true, nil)` has written the header:
the path has a header `h`, the file held some content `b`, and it now holds
the bytes built from `b` and `h`. -/
theorem addLicense_wrote {Tmpl Data : Type} (lowerRune : Nat → Nat)
    (compileGlob : Bytes → Option (Bytes → Bool))
    (prefixFn : Tmpl → Data → Bytes → Bytes → Bytes → HeaderResult)
    (verbose : Bool) (path : Bytes) (fmode : Nat) (tmpl : Tmpl) (data : Data)
    (ignoredPaths : List Bytes) (extensions : FileExtensions) (pats : List Bytes)
    (w w1 : World)
    (hrun : addLicense lowerRune compileGlob prefixFn verbose path fmode tmpl data
      ignoredPaths extensions pats w = some ((true, none), w1)) :
    ∃ h b m, licenseHeader lowerRune prefixFn path tmpl data extensions = (some h, none) ∧
      w.files path = some (b, m) ∧
      w1.files path = some (insertHeader lowerRune b h, m) := by
  unfold addLicense at hrun
  cases hign : pathInIgnoredPaths compileGlob path ignoredPaths with
  | none => simp [hign] at hrun
  | some ig =>
    cases ig with
    | true => simp [hign] at hrun
    | false =>
      simp only [hign] at hrun
      rcases hlic : licenseHeader lowerRune prefixFn path tmpl data extensions with ⟨lic, err⟩
      rw [hlic] at hrun
      simp only at hrun
      by_cases hv : (lic.isNone && err.isNone && verbose) = true
      · simp [hv] at hrun
      · simp only [hv, if_false] at hrun
        cases err with
        | some e => simp at hrun
        | none =>
          cases lic with
          | none => simp at hrun
          | some l =>
            simp only [Bool.false_eq_true, if_false] at hrun
            have hrd := ioutilReadFile_world path w
            by_cases hc : ((ioutilReadFile path w).1.2.isSome ||
                hasLicense lowerRune (ioutilReadFile path w).1.1 pats) = true
            · rw [if_pos hc] at hrun
              simp at hrun
            · rw [if_neg hc] at hrun
              simp only [Option.some.injEq, Prod.mk.injEq, true_and] at hrun
              obtain ⟨hwerr, rfl⟩ := hrun
              rw [Bool.or_eq_true, not_or] at hc
              obtain ⟨hok, _⟩ := hc
              rw [Option.isSome_iff_ne_none, not_not] at hok
              obtain ⟨b, m, _, hfi, hb⟩ := ioutilReadFile_of_ok path w hok
              rw [hrd] at hwerr ⊢
              simp only [hb] at hwerr ⊢
              rw [ioutilWriteFile_err] at hwerr
              exact ⟨l, b, m, rfl, hfi,
                ioutilWriteFile_files_ok path _ b fmode m (w.emit (.readFile path)) hwerr hfi⟩

/-- The bytes handed to the write are the completed preamble line, the
header, and the content after the preamble line. -/
theorem insertHeader_shape (lowerRune : Nat → Nat) (b h : Bytes) :
    insertHeader lowerRune b h =
      (if hashBang lowerRune b = [] then []
        else if [10] <:+ hashBang lowerRune b then hashBang lowerRune b
        else hashBang lowerRune b ++ [10])
      ++ h ++ b.drop (hashBang lowerRune b).length := by
  rw [insertHeader_eq]
  by_cases hl : hashBang lowerRune b = []
  · simp [hl]
  · simp only [hl, if_false]

/-- The detector answers true on a content in whose first 1000 bytes an
ASCII word occurs whose lower-cased form is a pattern in force. -/
theorem hasLicense_of_word (lowerRune : Nat → Nat) (out word : Bytes) (pats : List Bytes)
    (hascii : ∀ c ∈ word, c < 128) (hin : word <:+: out.take 1000)
    (hpat : (pats ≠ [] ∧ word.map asciiLower ∈ pats) ∨
      (pats = [] ∧ (word.map asciiLower = str "copyright" ∨
        word.map asciiLower = str "mozilla public"))) :
    hasLicense lowerRune out pats = true := by
  have hlow := toLower_ascii_isInfix lowerRune word (out.take 1000) hascii hin
  rw [hasLicense_window]
  rcases hpat with ⟨hne, hmem⟩ | ⟨rfl, hw⟩
  · have hlen : pats.length ≠ 0 := fun h => hne (List.length_eq_zero.mp h)
    rw [if_pos hlen, hasLicenseLoop_iff]
    exact ⟨_, hmem, hlow⟩
  · rw [if_neg (by simp), Bool.or_eq_true, contains_iff, contains_iff]
    rcases hw with hw | hw
    · exact Or.inl (hw ▸ hlow)
    · exact Or.inr (hw ▸ hlow)

/-- C2 (amended). Idempotence holds under a condition on the header and the
detection patterns: suppose that the header `h` of the path holds an ASCII
word whose lower-cased form is a pattern in force (one of the custom
patterns, or "copyright" or "mozilla public" when there is none), and that
the word ends within the first `1000 - len(pre)` bytes of `h` (`pre`, the
part of `h` before the word and the word take at most 1000 bytes together),
`pre` being the preamble line of the content completed by a newline (empty
when there is none).  Then after a first `addLicense` that returned, a second one with the
same configuration leaves the content and permission bits of every file as
the first run left them; after a first run that wrote the header the second
run returns `(false, nil)` and only reads the file. -/
theorem addLicense_twice_of_header_word {Tmpl Data : Type} (lowerRune : Nat → Nat)
    (compileGlob : Bytes → Option (Bytes → Bool))
    (prefixFn : Tmpl → Data → Bytes → Bytes → Bytes → HeaderResult)
    (verbose : Bool) (path : Bytes) (fmode : Nat) (tmpl : Tmpl) (data : Data)
    (ignoredPaths : List Bytes) (extensions : FileExtensions) (pats : List Bytes)
    (w : World) (r1 : Bool × Option GoError) (w1 : World)
    (hrun : addLicense lowerRune compileGlob prefixFn verbose path fmode tmpl data
      ignoredPaths extensions pats w = some (r1, w1))
    (hword : ∀ h b m, licenseHeader lowerRune prefixFn path tmpl data extensions
        = (some h, none) → w.files path = some (b, m) →
      ∃ pre front word back,
        pre = (if hashBang lowerRune b = [] then []
          else if [10] <:+ hashBang lowerRune b then hashBang lowerRune b
          else hashBang lowerRune b ++ [10]) ∧
        h = front ++ word ++ back ∧ (∀ c ∈ word, c < 128) ∧
        ((pats ≠ [] ∧ word.map asciiLower ∈ pats) ∨
          (pats = [] ∧ (word.map asciiLower = str "copyright" ∨
            word.map asciiLower = str "mozilla public"))) ∧
        pre.length + front.length + word.length ≤ 1000) :
    ∃ r2 w2, addLicenseTwice lowerRune compileGlob prefixFn verbose path fmode tmpl data
        ignoredPaths extensions pats w = some ((r1, w1), (r2, w2)) ∧
      w2.files = w1.files ∧
      (r1 = (true, none) → r2 = (false, none) ∧ w2.trace = w1.trace ++ [.readFile path]) := by
  have hdet : r1 = (true, none) → ∀ c m, w1.files path = some (c, m) →
      hasLicense lowerRune c pats = true := by
    intro hr c m hc
    subst hr
    obtain ⟨h, b, m0, hlic, hfile, hfile1⟩ := addLicense_wrote lowerRune compileGlob prefixFn
      verbose path fmode tmpl data ignoredPaths extensions pats w w1 hrun
    obtain ⟨pre, front, word, back, hpre, hh, hascii, hpat, hpos⟩ := hword h b m0 hlic hfile
    rw [hfile1] at hc
    cases hc
    refine hasLicense_of_word lowerRune _ word pats hascii ?_ hpat
    have hshape : insertHeader lowerRune b h
        = (pre ++ front) ++ word ++ (back ++ b.drop (hashBang lowerRune b).length) := by
      rw [insertHeader_shape, ← hpre, hh]
      simp only [List.append_assoc]
    rw [hshape]
    exact isInfix_take_window _ _ _ (by rw [List.length_append]; omega)
  obtain ⟨r2, w2, h2, hfiles, hres⟩ := addLicense_second_run lowerRune compileGlob prefixFn
    verbose path fmode tmpl data ignoredPaths extensions pats w r1 w1 hrun hdet
  refine ⟨r2, w2, ?_, hfiles, hres⟩
  unfold addLicenseTwice
  simp only [hrun, h2]

theorem addLicense_twice_of_header_word_witness :
    ∃ r2 w2, addLicenseTwice id sampleGlob sampleHeader false (str "run.sh") 493 () () [] []
        [str "spdx-license-identifier", str "acme"]
        (sampleWorld (str "run.sh") (str "#!/bin/sh\necho hi\n"))
      = some (((true, none),
          (ioutilWriteFile (str "run.sh") (str "#!/bin/sh\n# Copyright 2024 Acme\n\necho hi\n")
            493 ((sampleWorld (str "run.sh") (str "#!/bin/sh\necho hi\n")).emit
              (.readFile (str "run.sh")))).2), (r2, w2)) ∧
      w2.files (str "run.sh")
        = some (str "#!/bin/sh\n# Copyright 2024 Acme\n\necho hi\n", 420) ∧
      r2 = (false, none) := by
  obtain ⟨r2, w2, htwice, hfiles, hres⟩ :=
    addLicense_twice_of_header_word id sampleGlob sampleHeader false (str "run.sh") 493 () ()
      [] [] [str "spdx-license-identifier", str "acme"]
      (sampleWorld (str "run.sh") (str "#!/bin/sh\necho hi\n")) (true, none)
      (ioutilWriteFile (str "run.sh") (str "#!/bin/sh\n# Copyright 2024 Acme\n\necho hi\n")
        493 ((sampleWorld (str "run.sh") (str "#!/bin/sh\necho hi\n")).emit
          (.readFile (str "run.sh")))).2
      (by rfl)
      (fun h b m hl hf => by
        have hh : (some (str "# Copyright 2024 Acme\n\n"), (none : Option GoError))
            = (some h, none) := (by decide : _ = _).symm.trans hl
        have hb : some (str "#!/bin/sh\necho hi\n", 420) = some (b, m) :=
          (by decide : _ = _).symm.trans hf
        cases hh
        cases hb
        exact ⟨str "#!/bin/sh\n", str "# Copyright 2024 ", str "Acme", str "\n\n",
          by decide, by decide, by decide, Or.inl ⟨by decide, by decide⟩, by decide⟩)
  exact ⟨r2, w2, htwice, by rw [hfiles]; decide, (hres rfl).1⟩

end AddLicense
